import Mathlib

/-!
Verification of the replay-based tool-call sandbox and the message-history
transcoder of the tool-call-as-code runtime.

The engine definitions are a shallow embedding of
`src/run-code-server/run-tool-code.ts` (the current sandbox engine, served by
`run-code-server.ts`); `legacyRunToolCode` embeds the older classifier of
`src/server/run-tool-code.ts`.  The transcoder definitions embed
`src/server/type-conversion-helpers.ts`.

Modelling conventions:
* JSON-serialisable JavaScript values (the only values that cross the
  host/sandbox boundary) are the inductive `Value`; objects are association
  lists with key-unique fields and first-match lookup.
* The sandboxed user program is a strategy tree `Prog`: it either settles
  (resolves or rejects `main`), or synchronously enters a tool interceptor
  and continues from the interceptor's settled instruction.  This covers
  programs that catch interception sentinels and concurrent fan-out, since a
  continuation may keep calling tools after a rejection.
* `crypto.randomUUID()` is modelled by an identifier generator `gen : Nat →
  String` applied to a monotone mint counter.
-/

/-- JSON-like values exchanged between host and sandbox. -/
inductive Value where
  | null : Value
  | bool : Bool → Value
  | num : Int → Value
  | str : String → Value
  | arr : List Value → Value
  | obj : List (String × Value) → Value

/-- First-match field lookup on an object's association list (JS property
access on a key-unique object). -/
def objLookup (fields : List (String × Value)) (key : String) : Option Value :=
  match fields with
  | [] => none
  | (k, v) :: rest => if k = key then some v else objLookup rest key

/-- Field access on a `Value`, `none` when it is not an object or lacks the
field. -/
def Value.field (v : Value) (key : String) : Option Value :=
  match v with
  | .obj fields => objLookup fields key
  | _ => none

/-- Whether a value is a string (ts-pattern `P.string`). -/
def Value.isStr : Value → Bool
  | .str _ => true
  | _ => false

/-- Whether a value is a plain object (ts-pattern `P.record(P.string, P.unknown)`). -/
def Value.isObj : Value → Bool
  | .obj _ => true
  | _ => false

/-- One entry of the tool state, from `ToolState` in `types.ts`. -/
inductive ToolState where
  | pendingTool (id : String) (name : String) (arguments : Value)
  | resolvedTool (id : String) (result : Value)
  | rejectedTool (id : String) (error : Value)

/-- Whether an entry is pending. -/
def ToolState.isPending : ToolState → Bool
  | .pendingTool _ _ _ => true
  | _ => false

/-- Whether an entry is resolved or rejected (a settled entry). -/
def ToolState.isSettled : ToolState → Bool
  | .pendingTool _ _ _ => false
  | _ => true

/-- Whether an entry is rejected. -/
def ToolState.isRejected : ToolState → Bool
  | .rejectedTool _ _ => true
  | _ => false

/-- The `newToolCall` sentinel value built by the interceptor
(`{type: "newToolCall", name, args}` in `run-tool-code.ts`). -/
def newToolCallVal (name : String) (args : Value) : Value :=
  .obj [("type", .str "newToolCall"), ("name", .str name), ("args", args)]

/-- The `unexpectedPendingTool` sentinel value built by the interceptor. -/
def unexpectedPendingToolVal (name : String) (args : Value) : Value :=
  .obj [("type", .str "unexpectedPendingTool"), ("name", .str name), ("args", args)]

/-- The string held by a value's `type` field, when it is one. -/
def typeField (v : Value) : Option String :=
  match v.field "type" with
  | some (.str s) => some s
  | _ => none

/-- The ts-pattern literal test on a value's `type` field. -/
def typeFieldIs (v : Value) (t : String) : Bool :=
  match typeField v with
  | some s => s == t
  | none => false

/-- ts-pattern match against `NewToolCallPattern`
(`{type: "newToolCall", name: P.string, args: P.record(P.string, P.unknown)}`). -/
def isNewToolCall (v : Value) : Bool :=
  typeFieldIs v "newToolCall" &&
    ((v.field "name").elim false Value.isStr) &&
    ((v.field "args").elim false Value.isObj)

/-- ts-pattern match against the `UnexpectedPendingTool` pattern of
`server/run-tool-code.ts`. -/
def isUnexpectedPendingTool (v : Value) : Bool :=
  typeFieldIs v "unexpectedPendingTool" &&
    ((v.field "name").elim false Value.isStr) &&
    ((v.field "args").elim false Value.isObj)

/-- Whether a value is a number (ts-pattern `P.number`). -/
def Value.isNum : Value → Bool
  | .num _ => true
  | _ => false

/-- ts-pattern match against the `MismatchedToolCall` pattern
(`{type: "mismatchedToolCall", expected: P.string, actual: P.string, index: P.number}`). -/
def isMismatchedToolCall (v : Value) : Bool :=
  typeFieldIs v "mismatchedToolCall" &&
    ((v.field "expected").elim false Value.isStr) &&
    ((v.field "actual").elim false Value.isStr) &&
    ((v.field "index").elim false Value.isNum)

/-- A `PromiseInstruction` returned by the host dispatcher to the sandbox shim. -/
inductive Instr where
  | resolve (value : Value)
  | reject (value : Value)

/-- How an instruction settles the awaited promise inside the sandbox:
`Except.ok` for a resolution, `Except.error` for a rejection. -/
def instrRes : Instr → Except Value Value
  | .resolve v => .ok v
  | .reject v => .error v

/-- The replay cursor's state inside one `runToolCode` call: the read-only
input tool-state, the cursor `index`, the `mutableToolStatesOutput` buffer,
and the mint counter feeding the identifier generator. -/
structure EngineState where
  input : List ToolState
  index : Nat
  output : List ToolState
  fresh : Nat

/-- One interceptor invocation, from `createToolCallImplementation` in
`run-code-server/run-tool-code.ts`: consult `toolStates.at(index)` and
dispatch on its shape. -/
def toolCallStep (gen : Nat → String) (s : EngineState) (toolName : String)
    (toolArgs : Value) : Instr × EngineState :=
  match s.input.get? s.index with
  | some (.pendingTool _ _ _) =>
      (.reject (unexpectedPendingToolVal toolName toolArgs), s)
  | none =>
      (.reject (newToolCallVal toolName toolArgs),
        { s with
          output := s.output ++ [.pendingTool (gen s.fresh) toolName toolArgs]
          index := s.index + 1
          fresh := s.fresh + 1 })
  | some (.resolvedTool id r) =>
      (.resolve r,
        { s with output := s.output ++ [.resolvedTool id r], index := s.index + 1 })
  | some (.rejectedTool id e) =>
      (.reject e,
        { s with output := s.output ++ [.rejectedTool id e], index := s.index + 1 })

/-- The legacy interceptor of `server/run-tool-code.ts`: identical except that
the past-the-end branch does not advance the cursor (behaviourally equal,
since the cursor is already past every entry). -/
def toolCallStepLegacy (gen : Nat → String) (s : EngineState) (toolName : String)
    (toolArgs : Value) : Instr × EngineState :=
  match s.input.get? s.index with
  | some (.pendingTool _ _ _) =>
      (.reject (unexpectedPendingToolVal toolName toolArgs), s)
  | none =>
      (.reject (newToolCallVal toolName toolArgs),
        { s with
          output := s.output ++ [.pendingTool (gen s.fresh) toolName toolArgs]
          fresh := s.fresh + 1 })
  | some (.resolvedTool id r) =>
      (.resolve r,
        { s with output := s.output ++ [.resolvedTool id r], index := s.index + 1 })
  | some (.rejectedTool id e) =>
      (.reject e,
        { s with output := s.output ++ [.rejectedTool id e], index := s.index + 1 })

/-- The sandboxed user program as a strategy: settle `main` with a value, settle
it with a rejection, or synchronously call a tool interceptor and continue from
the settled instruction delivered to the corresponding await. -/
inductive Prog where
  | ret (v : Value)
  | thr (v : Value)
  | call (name : String) (args : Value) (k : Except Value Value → Prog)

/-- The settled state the trailer's `main().then(...)` collects. -/
inductive Collected where
  | success (value : Value)
  | error (error : Value)

/-- Run a program against a replay cursor built from `step`, returning the
collected settlement and the final engine state. -/
def runProgWith (step : EngineState → String → Value → Instr × EngineState) :
    Prog → EngineState → Collected × EngineState
  | .ret v, s => (.success v, s)
  | .thr v, s => (.error v, s)
  | .call name args k, s =>
      let r := step s name args
      runProgWith step (k (instrRes r.1)) r.2

/-- The initial engine state of one `runToolCode` call: fresh output buffer,
cursor at zero. -/
def initState (toolState : List ToolState) : EngineState :=
  { input := toolState, index := 0, output := [], fresh := 0 }

/-- `RunToolCodeResult` of `types.ts`: a terminal code result, a suspended
partial evaluation carrying the code and the output tool-state, or an engine
error. -/
inductive RunToolCodeResult where
  | code_result (result : Except Value Value)
  | partialEvaluation (code : String) (toolState : List ToolState)
  | engineError (message : String)

/-- Outcome classification of `runToolCode` in
`run-code-server/run-tool-code.ts` (lines 202-225): an empty collector is an
engine error, a success is a `code_result`, an error matching the new-tool-call
sentinel shape is a partial evaluation, any other error is a `code_result`
error. -/
def classify (code : String) (toolStatesOutput : List ToolState) :
    Option Collected → RunToolCodeResult
  | none => .engineError "No output collected"
  | some (.success v) => .code_result (.ok v)
  | some (.error e) =>
      if isNewToolCall e then .partialEvaluation code toolStatesOutput
      else .code_result (.error e)

/-- The settlement collected by one run of the current engine. -/
def runSettled (gen : Nat → String) (prog : Prog) (toolState : List ToolState) :
    Collected :=
  (runProgWith (toolCallStep gen) prog (initState toolState)).1

/-- The output tool-state built by one run of the current engine. -/
def runOutput (gen : Nat → String) (prog : Prog) (toolState : List ToolState) :
    List ToolState :=
  (runProgWith (toolCallStep gen) prog (initState toolState)).2.output

/-- `runToolCode` of `run-code-server/run-tool-code.ts`: run the program from a
fresh cursor, then classify the collected settlement.  `code` is the source
text of the script, `prog` its strategy semantics. -/
def runToolCode (gen : Nat → String) (code : String) (prog : Prog)
    (toolState : List ToolState) : RunToolCodeResult :=
  classify code (runOutput gen prog toolState) (some (runSettled gen prog toolState))

/-- Errors thrown by the legacy `runToolCode` of `server/run-tool-code.ts`. -/
inductive LegacyErr where
  | someErrorsNotNewToolCalls

/-- Outcomes of the legacy `runToolCode` (a `Result<unknown, PartialEvaluation>`). -/
inductive LegacyOutcome where
  | success (value : Value)
  | partialEvaluation (code : String) (toolState : List ToolState)

/-- Legacy outcome classification (`server/run-tool-code.ts` lines 248-269):
split the collected settlements into errors and successes; with no error,
succeed with the first success value (`undefined` modelled as `null`); with
errors, throw unless every error matches the new-tool-call shape, else return
the partial evaluation. -/
def legacyClassify (code : String) (toolStatesOutput : List ToolState)
    (collectedOutput : List Collected) : Except LegacyErr LegacyOutcome :=
  let errors := collectedOutput.filterMap fun c =>
    match c with | .error e => some e | _ => none
  let successes := collectedOutput.filterMap fun c =>
    match c with | .success v => some v | _ => none
  if errors.isEmpty then
    .ok (.success (successes.headD .null))
  else
    let newToolCalls := errors.filter isNewToolCall
    if newToolCalls.length ≠ errors.length then .error .someErrorsNotNewToolCalls
    else .ok (.partialEvaluation code toolStatesOutput)

/-- The legacy `runToolCode` of `server/run-tool-code.ts`, end to end. -/
def legacyRunToolCode (gen : Nat → String) (code : String) (prog : Prog)
    (toolState : List ToolState) : Except LegacyErr LegacyOutcome :=
  let r := runProgWith (toolCallStepLegacy gen) prog (initState toolState)
  legacyClassify code r.2.output [r.1]

/-- Identifier erasure on one tool-state entry: blank the id of a pending
entry, keep settled entries intact. -/
def eraseId : ToolState → ToolState
  | .pendingTool _ name args => .pendingTool "" name args
  | t => t

/-- Identifier-free view of an outcome: erase the minted ids of the pending
entries of a partial evaluation. -/
def eraseOutcome : RunToolCodeResult → RunToolCodeResult
  | .partialEvaluation code ts => .partialEvaluation code (ts.map eraseId)
  | r => r

/-- A tool call carried by a client assistant message: either a code block
(`ToolCallCode`, `{type: "code", id, code}`) or a standard function tool call
(`{id, index?, function: {name, arguments}}`; the optional `index` mirrors the
wire format's position field). -/
inductive CToolCall where
  | code (id : String) (code : String)
  | func (id : String) (name : String) (arguments : Value) (index : Option Nat)

/-- The identifier of a tool call (`toolCall.id`). -/
def CToolCall.ctcId : CToolCall → String
  | .code id _ => id
  | .func id _ _ _ => id

/-- Whether a tool call is a code block (`toolCall.type === "code"`). -/
def CToolCall.isCode : CToolCall → Bool
  | .code _ _ => true
  | _ => false

/-- Whether a tool call is a standard function tool call. -/
def CToolCall.isFunc : CToolCall → Bool
  | .func _ _ _ _ => true
  | _ => false

/-- Whether a tool call matches the `RunTypeScriptToolCall` ts-pattern
(`{id: P.string, function: {name: "run_typescript", arguments: P.string}}`). -/
def CToolCall.isRunTs : CToolCall → Bool
  | .func _ name args _ => name == "run_typescript" && args.isStr
  | _ => false

/-- The content of a tool message, classified by the outcome of `JSON.parse`:
a string that parses to a value, a string that is not valid JSON, or content
that is not a string at all. -/
inductive ToolContent where
  | parses (v : Value)
  | nonJson (s : String)
  | nonString (v : Value)

/-- Whether tool-message content is a JSON-parsable string. -/
def ToolContent.isParsable : ToolContent → Bool
  | .parses _ => true
  | _ => false

/-- A client-visible message as consumed by `type-conversion-helpers.ts`:
system, user, assistant (with optional tool calls) or tool.  In this revision
a code block is the `ToolCallCode` of an assistant message, and a code result
is the tool message whose `toolCallId` is the block's id; server messages
share the same shape. -/
inductive ClientMessage where
  | system (content : String)
  | user (content : String)
  | assistant (content : Option String) (toolCalls : Option (List CToolCall))
  | tool (toolCallId : String) (content : ToolContent)

/-- The tool calls of a message (`message.toolCalls ?? []` on assistants,
nothing otherwise). -/
def ClientMessage.msgToolCalls : ClientMessage → List CToolCall
  | .assistant _ toolCalls => toolCalls.getD []
  | _ => []

/-- Whether a message is an assistant message. -/
def ClientMessage.isAssistant : ClientMessage → Bool
  | .assistant _ _ => true
  | _ => false

/-- Whether a message is a tool message. -/
def ClientMessage.isTool : ClientMessage → Bool
  | .tool _ _ => true
  | _ => false

/-- Whether a message is an assistant message carrying a code tool call
(the `findLastIndex` predicate of `parseClientMessages`). -/
def isCodeAssistant (m : ClientMessage) : Bool :=
  m.isAssistant && m.msgToolCalls.any CToolCall.isCode

/-- Whether a message is a tool message with the given tool-call id. -/
def isToolWithId (id : String) (m : ClientMessage) : Bool :=
  match m with
  | .tool toolCallId _ => toolCallId == id
  | _ => false

/-- Whether a message is an assistant message without tool calls
(`message.role === "assistant" && !message.toolCalls?.length`). -/
def isAssistantWithoutToolCalls (m : ClientMessage) : Bool :=
  match m with
  | .assistant _ toolCalls => (toolCalls.getD []).isEmpty
  | _ => false

/-- `Array.prototype.findLastIndex`: the greatest index whose element satisfies
the predicate, `-1` when none does. -/
def findLastIndex (p : α → Bool) : List α → Int
  | [] => -1
  | x :: xs =>
      let r := findLastIndex p xs
      if r = -1 then (if p x then 0 else -1) else r + 1

/-- `toolCalls.findLast(toolCall => toolCall.type === "code")`, projected to
the code tool call's id and code string. -/
def findLastCodeCall : List CToolCall → Option (String × String)
  | [] => none
  | tc :: rest =>
      match findLastCodeCall rest with
      | some r => some r
      | none => match tc with
        | .code id c => some (id, c)
        | _ => none

/-- One JSON string-escape step (backslash, quote and newline escapes of
`JSON.stringify` on the characters the runtime exchanges). -/
def jsonEscapeChar (c : Char) : String :=
  if c = '\\' then "\\\\"
  else if c = '"' then "\\\""
  else if c = '\n' then "\\n"
  else String.singleton c

/-- JSON string literal encoding, as `JSON.stringify` of a string. -/
def jsonEncodeString (s : String) : String :=
  "\"" ++ String.join (s.data.map jsonEscapeChar) ++ "\""

/-- `JSON.stringify({code})`: the argument string of the projected
`run_typescript` tool call. -/
def encodeCodeArg (code : String) : String :=
  "\x7b\"code\":" ++ jsonEncodeString code ++ "\x7d"

/-- The exceptions `type-conversion-helpers.ts` throws during projection and
tool-state building. -/
inductive PErr where
  | toolOutsideCode
  | invalidAssistantToolCall
  | unexpectedRoleInCode (role : String)
  | contentNotString
  | contentNotJson
  | codeToolCallFunctionAccess

/-- The fold state of `clientToServerMessages`: `normal`, or inside a code
block with the block's id. -/
inductive Ctx where
  | normal
  | code (id : String)

/-- The fold of `clientToServerMessages` (lines 121-238 of
`type-conversion-helpers.ts`), with the accumulator's concatenations written
as a recursion producing the emitted message list; protocol violations are
thrown as `PErr`. -/
def ctosGo : Ctx → List ClientMessage → Except PErr (List ClientMessage)
  | _, [] => .ok []
  | .normal, m :: rest =>
      match m with
      | .assistant content toolCalls =>
          match findLastCodeCall (toolCalls.getD []) with
          | some (id, codeStr) => do
              let tail ← ctosGo (.code id) rest
              .ok (.assistant (some "")
                (some [.func id "run_typescript" (.str (encodeCodeArg codeStr)) none]) :: tail)
          | none =>
              if (toolCalls.getD []).all CToolCall.isRunTs then do
                let tail ← ctosGo .normal rest
                .ok (.assistant content toolCalls :: tail)
              else .error .invalidAssistantToolCall
      | .system content => do
          let tail ← ctosGo .normal rest
          .ok (.system content :: tail)
      | .user content => do
          let tail ← ctosGo .normal rest
          .ok (.user content :: tail)
      | .tool _ _ => .error .toolOutsideCode
  | .code id, m :: rest =>
      match m with
      | .tool toolCallId content =>
          if toolCallId = id then do
            let tail ← ctosGo .normal rest
            .ok (.tool toolCallId content :: tail)
          else ctosGo (.code id) rest
      | .assistant _ _ => ctosGo (.code id) rest
      | .system _ => .error (.unexpectedRoleInCode "system")
      | .user _ => .error (.unexpectedRoleInCode "user")

/-- `clientToServerMessages`: fold the client history from the `normal` state. -/
def clientToServerMessages (messages : List ClientMessage) : Except PErr (List ClientMessage) :=
  ctosGo .normal messages

/-- The content a single message contributes to the tool-message index under
the given id. -/
def toolMessageEntry (id : String) (m : ClientMessage) : Option ToolContent :=
  match m with
  | .tool toolCallId content => if toolCallId = id then some content else none
  | _ => none

/-- `remeda.indexBy` of the slice's tool messages keyed by `toolCallId`
(later entries override earlier ones), then a key lookup: the content of the
last tool message with the given id. -/
def lookupToolMessage (slice : List ClientMessage) (id : String) : Option ToolContent :=
  match slice with
  | [] => none
  | m :: rest =>
      match lookupToolMessage rest id with
      | some c => some c
      | none => toolMessageEntry id m

/-- The slice `messagesToToolState` works on: everything after the latest
assistant message without tool calls, or the whole history when none exists. -/
def mttsSlice (history : List ClientMessage) : List ClientMessage :=
  let lastIdx := findLastIndex isAssistantWithoutToolCalls history
  if lastIdx = -1 then history else history.drop (lastIdx.toNat + 1)

/-- The assistant tool calls collected from the slice
(`historySlice.flatMap(message => message.role === "assistant" ? message.toolCalls ?? [] : [])`). -/
def mttsToolCalls (history : List ClientMessage) : List CToolCall :=
  (mttsSlice history).flatMap ClientMessage.msgToolCalls

/-- One tool call's tool-state entry in `messagesToToolState`: pending when no
tool message matches its id (accessing `toolCall.function` of a code tool call
is the modelled TypeError), resolved when the matching content is a JSON
string, and a thrown classification error otherwise. -/
def mttsEntry (slice : List ClientMessage) (tc : CToolCall) : Except PErr ToolState :=
  match lookupToolMessage slice tc.ctcId with
  | none =>
      match tc with
      | .func id name args _ => .ok (.pendingTool id name args)
      | .code _ _ => .error .codeToolCallFunctionAccess
  | some content =>
      match content with
      | .nonString _ => .error .contentNotString
      | .nonJson _ => .error .contentNotJson
      | .parses v => .ok (.resolvedTool tc.ctcId v)

/-- `Array.prototype.map` with exception propagation: stop at the first
element the function throws on. -/
def mapE (f : α → Except ε β) : List α → Except ε (List β)
  | [] => .ok []
  | a :: l =>
      match f a with
      | .error e => .error e
      | .ok b =>
          match mapE f l with
          | .error e => .error e
          | .ok bs => .ok (b :: bs)

/-- `messagesToToolState` (lines 250-307 of `type-conversion-helpers.ts`). -/
def messagesToToolState (history : List ClientMessage) : Except PErr (List ToolState) :=
  mapE (mttsEntry (mttsSlice history)) (mttsToolCalls history)

/-- The error kinds of `ParseClientMessagesResult`'s error mode. -/
inductive ParseErrType where
  | result_with_no_code_block
  | code_slice_containing_unexpected_messages

/-- `ParseClientMessagesResult`: code mode (an open block with its code, id
and reconstructed tool-state), llm mode (the server-view projection), or an
error classification. -/
inductive ParseResult where
  | modeCode (code : String) (id : String) (toolState : List ToolState)
  | modeLlm (messages : List ClientMessage)
  | modeError (errorType : ParseErrType)

/-- Whether a parse result is the llm or the code mode. -/
def ParseResult.isLlmOrCode : ParseResult → Bool
  | .modeError _ => false
  | _ => true

/-- `lastCodeIndex` of `parseClientMessages`. -/
def lastCodeIndexOf (messages : List ClientMessage) : Int :=
  findLastIndex isCodeAssistant messages

/-- `lastToolCallCode` of `parseClientMessages`: the last code tool call of
the message at `lastCodeIndex`, when that index is not `-1`. -/
def lastToolCallCodeOf (messages : List ClientMessage) : Option (String × String) :=
  if lastCodeIndexOf messages = -1 then none
  else
    match messages.get? (lastCodeIndexOf messages).toNat with
    | some m => findLastCodeCall m.msgToolCalls
    | none => none

/-- `lastCodeResultIndex` of `parseClientMessages`: the last tool message
matching the last code tool call's id, `-1` without such a tool call. -/
def lastCodeResultIndexOf (messages : List ClientMessage) : Int :=
  match lastToolCallCodeOf messages with
  | some (id, _) => findLastIndex (isToolWithId id) messages
  | none => -1

/-- `parseClientMessages` (lines 45-116 of `type-conversion-helpers.ts`).
The guard `(lastCodeIndex === -1 && lastCodeResultIndex === -1) ||
!lastToolCallCode` is split on `lastToolCallCode` first; the remaining
branches follow the source order. -/
def parseClientMessages (messages : List ClientMessage) : Except PErr ParseResult :=
  match lastToolCallCodeOf messages with
  | none => (clientToServerMessages messages).map ParseResult.modeLlm
  | some (id, code) =>
      if lastCodeIndexOf messages = -1 ∧ lastCodeResultIndexOf messages = -1 then
        (clientToServerMessages messages).map ParseResult.modeLlm
      else if lastCodeIndexOf messages = -1 then
        .ok (.modeError .result_with_no_code_block)
      else if lastCodeResultIndexOf messages < lastCodeIndexOf messages then
        let slice := messages.drop ((lastCodeIndexOf messages).toNat + 1)
        if slice.all (fun m => m.isAssistant || m.isTool) then
          (messagesToToolState slice).map fun ts => .modeCode code id ts
        else .ok (.modeError .code_slice_containing_unexpected_messages)
      else (clientToServerMessages messages).map ParseResult.modeLlm

/-- `toolStatesToAssistantMessage` (lines 337-357 of
`type-conversion-helpers.ts`): an assistant message whose tool calls come from
a `flatMap` keeping one function tool call per pending entry. -/
def toolStatesToAssistantMessage (toolStates : List ToolState) : ClientMessage :=
  .assistant (some "")
    (some (toolStates.enum.flatMap fun p =>
      match p.2 with
      | .pendingTool id name args => [.func id name args (some p.1)]
      | .resolvedTool _ _ => []
      | .rejectedTool _ _ => []))

/-- Modelled from the spec (pending-to-client projection): the tool calls are
exactly the pending entries of the tool-state, in order, each with its
recorded id, function name and arguments. -/
def specPendingToolCalls (toolStates : List ToolState) : List CToolCall :=
  toolStates.enum.filterMap fun p =>
    match p.2 with
    | .pendingTool id name args => some (.func id name args (some p.1))
    | _ => none

/-- The state of the well-formedness recogniser: outside any code block, or
inside the block of `codeId` with the function tool-call ids `asked` so far. -/
inductive WFSt where
  | normal
  | inBlock (codeId : String) (asked : List String)

/-- Recogniser of well-formed client histories, following the spec's
invariant: code blocks are opened by an assistant message carrying exactly one
code tool call with a fresh id; inside a block only assistant messages with
(function-only, fresh-id) tool calls and tool messages occur; a tool message
either closes the block (the block's id) or answers an asked tool call with
JSON-parsable string content; identifiers never repeat.  `used` accumulates
every identifier seen. -/
def wfGo (used : List String) : WFSt → List ClientMessage → Bool
  | .normal, [] => true
  | .normal, m :: rest =>
      match m with
      | .system _ => wfGo used .normal rest
      | .user _ => wfGo used .normal rest
      | .assistant _ toolCalls =>
          match toolCalls.getD [] with
          | [] => wfGo used .normal rest
          | [.code id _] => !used.contains id && wfGo (id :: used) (.inBlock id []) rest
          | _ => false
      | .tool _ _ => false
  | .inBlock _ _, [] => true
  | .inBlock codeId asked, m :: rest =>
      match m with
      | .assistant _ toolCalls =>
          match toolCalls.getD [] with
          | [] => false
          | tcs =>
              tcs.all CToolCall.isFunc &&
                (tcs.map CToolCall.ctcId).all (fun id => !used.contains id) &&
                (tcs.map CToolCall.ctcId).Nodup &&
                wfGo (tcs.map CToolCall.ctcId ++ used)
                  (.inBlock codeId (asked ++ tcs.map CToolCall.ctcId)) rest
      | .tool toolCallId content =>
          if toolCallId = codeId then wfGo used .normal rest
          else
            asked.contains toolCallId && content.isParsable &&
              wfGo used (.inBlock codeId asked) rest
      | .system _ => false
      | .user _ => false

/-- A well-formed client history: accepted by the recogniser from the normal
state with no identifier seen. -/
def WellFormed (messages : List ClientMessage) : Bool :=
  wfGo [] .normal messages

/-- Whether a history contains no code-block assistant message. -/
def noCodeAssistant (messages : List ClientMessage) : Bool :=
  messages.all fun m => !isCodeAssistant m

/-- Reachability invariant of the replay cursor inside one evaluation over
input `ts`: the output buffer is the consumed prefix of the input followed by
minted pending entries; the consumed prefix is settled; one pending entry is
minted per unit of the mint counter; and pending entries are only minted after
the whole input has been consumed. -/
def EngineInv (ts : List ToolState) (s : EngineState) : Prop :=
  s.input = ts ∧
  (∀ e ∈ ts.take s.index, e.isSettled = true) ∧
  ∃ minted, s.output = ts.take s.index ++ minted ∧ minted.length = s.fresh ∧
    (∀ m ∈ minted, m.isPending = true) ∧ (minted ≠ [] → ts.length ≤ s.index)

/-- The shape of messages inside an open (never-closed) code block: assistant
messages with non-empty, function-only tool calls, or tool messages with
JSON-parsable string content. -/
def inBlockShapeOk (m : ClientMessage) : Bool :=
  match m with
  | .assistant _ toolCalls =>
      !(toolCalls.getD []).isEmpty && (toolCalls.getD []).all CToolCall.isFunc
  | .tool _ content => content.isParsable
  | _ => false

theorem engineInv_init (ts : List ToolState) : EngineInv ts (initState ts) := by
  refine ⟨rfl, ?_, [], ?_, rfl, ?_, ?_⟩ <;> simp [initState]

theorem engineInv_step (gen : Nat → String) (ts : List ToolState) (s : EngineState)
    (name : String) (args : Value) (h : EngineInv ts s) :
    EngineInv ts (toolCallStep gen s name args).2 := by
  obtain ⟨hin, hsettled, minted, hout, hlen, hpend, hpast⟩ := h
  unfold toolCallStep
  rcases hget : s.input.get? s.index with _ | t
  · have hle : ts.length ≤ s.index := by
      rw [hin] at hget; exact List.get?_eq_none.mp hget
    have htake : ts.take s.index = ts := List.take_of_length_le hle
    have htake' : ts.take (s.index + 1) = ts :=
      List.take_of_length_le (Nat.le_succ_of_le hle)
    refine ⟨hin, ?_, minted ++ [.pendingTool (gen s.fresh) name args], ?_, ?_, ?_, ?_⟩
    · intro e he; rw [htake'] at he; rw [← htake] at he; exact hsettled e he
    · simp only [hout, htake, htake', List.append_assoc]
    · simp [hlen]
    · intro m hm
      rcases List.mem_append.mp hm with hm | hm
      · exact hpend m hm
      · simp only [List.mem_singleton] at hm; subst hm; rfl
    · intro _; exact Nat.le_succ_of_le hle
  · rw [hin] at hget
    have hgetElem : ts[s.index]? = some t := by
      rw [← List.get?_eq_getElem?]; exact hget
    obtain ⟨hlt, -⟩ := List.get?_eq_some.mp hget
    have hminted : minted = [] := by
      by_contra hne
      exact absurd (hpast hne) (Nat.not_le.mpr hlt)
    subst hminted
    have htake' : ts.take (s.index + 1) = ts.take s.index ++ [t] := by
      rw [List.take_succ, hgetElem]; rfl
    rcases t with ⟨id, n, a⟩ | ⟨id, r⟩ | ⟨id, e⟩
    · exact ⟨hin, hsettled, [], by simpa using hout, by simpa using hlen, by simp, by simp⟩
    · refine ⟨hin, ?_, [], ?_, by simpa using hlen, by simp, by simp⟩
      · intro e he
        rw [htake'] at he
        rcases List.mem_append.mp he with he | he
        · exact hsettled e he
        · simp only [List.mem_singleton] at he; subst he; rfl
      · simp only [hout, htake', List.append_nil, List.append_assoc]
    · refine ⟨hin, ?_, [], ?_, by simpa using hlen, by simp, by simp⟩
      · intro e' he
        rw [htake'] at he
        rcases List.mem_append.mp he with he | he
        · exact hsettled e' he
        · simp only [List.mem_singleton] at he; subst he; rfl
      · simp only [hout, htake', List.append_nil, List.append_assoc]

theorem engineInv_run (gen : Nat → String) (ts : List ToolState) (p : Prog)
    (s : EngineState) (h : EngineInv ts s) :
    EngineInv ts (runProgWith (toolCallStep gen) p s).2 := by
  induction p generalizing s with
  | ret v => exact h
  | thr v => exact h
  | call name args k ih =>
      exact ih _ _ (engineInv_step gen ts s name args h)

/-- C1: with an input tool-state of settled entries, each interceptor
invocation consults the input at the monotonic cursor: past the end it appends
a fresh-id pending entry and rejects with the newToolCall sentinel, advancing
the cursor; at a resolved entry it appends that entry verbatim, advances, and
resolves with the recorded result; at a rejected entry it appends that entry
verbatim, advances, and rejects with the recorded error.  The cursor of every
evaluation starts at zero (`initState`). -/
theorem interceptor_cursor_table (gen : Nat → String) (s : EngineState)
    (name : String) (args : Value)
    (hsettled : ∀ e ∈ s.input, e.isSettled = true) :
    (s.input.get? s.index = none →
      toolCallStep gen s name args =
        (.reject (newToolCallVal name args),
          { s with
            output := s.output ++ [.pendingTool (gen s.fresh) name args]
            index := s.index + 1
            fresh := s.fresh + 1 })) ∧
    (∀ id r, s.input.get? s.index = some (.resolvedTool id r) →
      toolCallStep gen s name args =
        (.resolve r,
          { s with output := s.output ++ [.resolvedTool id r], index := s.index + 1 })) ∧
    (∀ id e, s.input.get? s.index = some (.rejectedTool id e) →
      toolCallStep gen s name args =
        (.reject e,
          { s with output := s.output ++ [.rejectedTool id e], index := s.index + 1 })) ∧
    (∀ code prog ts, runToolCode gen code prog ts =
      classify code (runProgWith (toolCallStep gen) prog (initState ts)).2.output
        (some (runProgWith (toolCallStep gen) prog (initState ts)).1)) := by
  refine ⟨?_, ?_, ?_, ?_⟩
  · intro hget; unfold toolCallStep; rw [hget]
  · intro id r hget; unfold toolCallStep; rw [hget]
  · intro id e hget; unfold toolCallStep; rw [hget]
  · intro code prog ts; rfl

/-- Closed instance of the cursor table: a two-entry settled input with the
cursor on its resolved head. -/
theorem interceptor_cursor_table_witness :
    toolCallStep (fun n => "id" ++ toString n)
      { input := [.resolvedTool "a" (.str "r"), .rejectedTool "b" (.str "e")],
        index := 0, output := [], fresh := 0 } "webSearch" (.obj []) =
      (.resolve (.str "r"),
        { input := [.resolvedTool "a" (.str "r"), .rejectedTool "b" (.str "e")],
          index := 1, output := [.resolvedTool "a" (.str "r")], fresh := 0 }) :=
  (interceptor_cursor_table (fun n => "id" ++ toString n)
      { input := [.resolvedTool "a" (.str "r"), .rejectedTool "b" (.str "e")],
        index := 0, output := [], fresh := 0 } "webSearch" (.obj [])
      (by intro e he; fin_cases he <;> rfl)).2.1
    "a" (.str "r") rfl

/-- Every value the interceptor can reject with is the newToolCall sentinel,
the unexpectedPendingTool sentinel, or the verbatim error recorded in a
rejected input entry at the cursor. -/
theorem interceptor_reject_shapes (gen : Nat → String) (s : EngineState)
    (name : String) (args : Value) (e : Value)
    (h : (toolCallStep gen s name args).1 = .reject e) :
    e = newToolCallVal name args ∨ e = unexpectedPendingToolVal name args ∨
      ∃ id, s.input.get? s.index = some (.rejectedTool id e) := by
  unfold toolCallStep at h
  rcases hget : s.input.get? s.index with _ | t <;> rw [hget] at h
  · left; exact (Instr.reject.injEq _ _).mp (congrArg id h) |>.symm ▸ rfl
  · rcases t with ⟨id, n, a⟩ | ⟨id, r⟩ | ⟨id, err⟩ <;> simp only at h
    · right; left
      cases h; rfl
    · cases h
    · right; right
      cases h
      exact ⟨id, rfl⟩

/-- A value matching the mismatchedToolCall pattern matches neither sentinel
the interceptor builds. -/
theorem sentinel_not_mismatched (name : String) (args : Value) :
    isMismatchedToolCall (newToolCallVal name args) = false ∧
      isMismatchedToolCall (unexpectedPendingToolVal name args) = false := by
  constructor <;> rfl

/-- C10: the replay engine never produces a mismatchedToolCall rejection.
Settled input entries are consumed purely by cursor position — the returned
instruction and successor state are independent of the invoked tool's name and
arguments, so a replay that invokes a different tool at position `i` still
receives the recorded result — and any rejected value matching the
mismatchedToolCall pattern can only be a verbatim recorded client error, never
a value the engine minted. -/
theorem no_mismatched_tool_call (gen : Nat → String) (s : EngineState) :
    (∀ n₁ a₁ n₂ a₂ id r, s.input.get? s.index = some (.resolvedTool id r) →
      toolCallStep gen s n₁ a₁ = toolCallStep gen s n₂ a₂ ∧
        (toolCallStep gen s n₁ a₁).1 = .resolve r) ∧
    (∀ n₁ a₁ n₂ a₂ id e, s.input.get? s.index = some (.rejectedTool id e) →
      toolCallStep gen s n₁ a₁ = toolCallStep gen s n₂ a₂ ∧
        (toolCallStep gen s n₁ a₁).1 = .reject e) ∧
    (∀ n a e, (toolCallStep gen s n a).1 = .reject e →
      isMismatchedToolCall e = true →
      ∃ id, s.input.get? s.index = some (.rejectedTool id e)) := by
  refine ⟨?_, ?_, ?_⟩
  · intro n₁ a₁ n₂ a₂ id r hget
    constructor <;> (unfold toolCallStep; rw [hget])
  · intro n₁ a₁ n₂ a₂ id e hget
    constructor <;> (unfold toolCallStep; rw [hget])
  · intro n a e hrej hmis
    rcases interceptor_reject_shapes gen s n a e hrej with rfl | rfl | h
    · exact absurd hmis (by rw [(sentinel_not_mismatched n a).1]; simp)
    · exact absurd hmis (by rw [(sentinel_not_mismatched n a).2]; simp)
    · exact h

/-- Closed instance of C10: at a cursor pointing to a recorded webSearch
resolution, invoking a different tool (`translate`) with different arguments
still yields the recorded result. -/
theorem no_mismatched_tool_call_witness :
    toolCallStep (fun n => "id" ++ toString n)
        { input := [.resolvedTool "a" (.arr [.str "hit"])], index := 0,
          output := [], fresh := 0 } "translate" (.obj [("text", .str "x")]) =
      toolCallStep (fun n => "id" ++ toString n)
        { input := [.resolvedTool "a" (.arr [.str "hit"])], index := 0,
          output := [], fresh := 0 } "webSearch" (.obj [("query", .str "news")]) ∧
    (toolCallStep (fun n => "id" ++ toString n)
        { input := [.resolvedTool "a" (.arr [.str "hit"])], index := 0,
          output := [], fresh := 0 } "translate" (.obj [("text", .str "x")])).1 =
      .resolve (.arr [.str "hit"]) :=
  (no_mismatched_tool_call (fun n => "id" ++ toString n)
      { input := [.resolvedTool "a" (.arr [.str "hit"])], index := 0,
        output := [], fresh := 0 }).1
    "translate" (.obj [("text", .str "x")]) "webSearch" (.obj [("query", .str "news")])
    "a" (.arr [.str "hit"]) rfl

/-- Case analysis of the outcome classifier on the settled error's shape. -/
theorem runToolCode_shape_cases (gen : Nat → String) (code : String)
    (prog : Prog) (ts : List ToolState) :
    (∀ e, runSettled gen prog ts = .error e → isNewToolCall e = true →
      runToolCode gen code prog ts = .partialEvaluation code (runOutput gen prog ts)) ∧
    (∀ e, runSettled gen prog ts = .error e → isNewToolCall e = false →
      runToolCode gen code prog ts = .code_result (.error e)) ∧
    (∀ out, runToolCode gen code prog ts = .partialEvaluation code out →
      ∃ e, runSettled gen prog ts = .error e ∧ isNewToolCall e = true ∧
        out = runOutput gen prog ts) := by
  refine ⟨?_, ?_, ?_⟩
  · intro e hset hshape
    unfold runToolCode
    rw [hset]
    simp only [classify, hshape, if_true]
  · intro e hset hshape
    unfold runToolCode
    rw [hset]
    simp only [classify, hshape, Bool.false_eq_true, if_false]
  · intro out hrun
    unfold runToolCode at hrun
    rcases hset : runSettled gen prog ts with v | e <;> rw [hset] at hrun <;>
      simp only [classify] at hrun
    · cases hrun
    · rcases hshape : isNewToolCall e with _ | _ <;>
        simp only [hshape, Bool.false_eq_true, if_false, if_true] at hrun
      · cases hrun
      · cases hrun
        exact ⟨e, rfl, hshape, rfl⟩

/-- C2 (amended): when the sandboxed script settles with an error `e`,
`runToolCode` returns the partial outcome iff `e` matches the new-tool-call
sentinel shape — the engine checks only the shape, not whether a pending entry
was appended — and returns `code_result{error: e}` for every non-matching
error. -/
theorem classification_by_sentinel_shape (gen : Nat → String) (code : String)
    (prog : Prog) (ts : List ToolState) :
    (∀ e, runSettled gen prog ts = .error e → isNewToolCall e = true →
      runToolCode gen code prog ts = .partialEvaluation code (runOutput gen prog ts)) ∧
    (∀ e, runSettled gen prog ts = .error e → isNewToolCall e = false →
      runToolCode gen code prog ts = .code_result (.error e)) ∧
    (∀ out, runToolCode gen code prog ts = .partialEvaluation code out →
      ∃ e, runSettled gen prog ts = .error e ∧ isNewToolCall e = true ∧
        out = runOutput gen prog ts) :=
  runToolCode_shape_cases gen code prog ts

/-- Counterexample to C2 as stated: a user program that rejects `main` with a
value merely mimicking the sentinel shape, with no pending entry recorded,
still yields a partial outcome with an empty output tool-state instead of the
claimed `code_result{error}`. -/
theorem mimicked_sentinel_yields_partial :
    runToolCode (fun n => "id" ++ toString n) "c"
        (.thr (newToolCallVal "fake" (.obj []))) [] =
      .partialEvaluation "c" [] ∧
    (([] : List ToolState).all ToolState.isSettled) = true := ⟨rfl, rfl⟩

/-- Closed instance of the amended C2: a genuine first `webSearch` interception
on an empty tool-state settles with the minted sentinel and is classified as a
partial outcome. -/
theorem classification_by_sentinel_shape_witness :
    runToolCode (fun n => "id" ++ toString n) "c"
        (.call "webSearch" (.obj [("query", .str "news today")]) fun r =>
          match r with
          | .error e => .thr e
          | .ok v => .ret v) [] =
      .partialEvaluation "c"
        (runOutput (fun n => "id" ++ toString n)
          (.call "webSearch" (.obj [("query", .str "news today")]) fun r =>
            match r with
            | .error e => .thr e
            | .ok v => .ret v) []) :=
  (classification_by_sentinel_shape (fun n => "id" ++ toString n) "c"
      (.call "webSearch" (.obj [("query", .str "news today")]) fun r =>
        match r with
        | .error e => .thr e
        | .ok v => .ret v) []).1
    (newToolCallVal "webSearch" (.obj [("query", .str "news today")])) rfl rfl

/-- The `type`-field literal test holds for at most one literal. -/
theorem typeFieldIs_unique (v : Value) (a b : String)
    (ha : typeFieldIs v a = true) (hb : typeFieldIs v b = true) : a = b := by
  unfold typeFieldIs at ha hb
  rcases hf : typeField v with _ | s <;> rw [hf] at ha hb
  · cases ha
  · exact (eq_of_beq ha).symm.trans (eq_of_beq hb)

/-- An error matching the unexpectedPendingTool or the mismatchedToolCall
pattern does not match the newToolCall pattern: the `type` fields differ. -/
theorem other_sentinels_not_new_tool_call (e : Value)
    (h : isUnexpectedPendingTool e = true ∨ isMismatchedToolCall e = true) :
    isNewToolCall e = false := by
  have htype : typeFieldIs e "unexpectedPendingTool" = true ∨
      typeFieldIs e "mismatchedToolCall" = true := by
    rcases h with h | h
    · exact Or.inl (Bool.and_elim_left (Bool.and_elim_left h))
    · exact Or.inr (Bool.and_elim_left (Bool.and_elim_left (Bool.and_elim_left h)))
  by_contra hnew
  have hnew' : isNewToolCall e = true := by
    rcases hb : isNewToolCall e with _ | _
    · exact absurd hb hnew
    · rfl
  have hfirst : typeFieldIs e "newToolCall" = true :=
    (Bool.and_elim_left (Bool.and_elim_left hnew'))
  rcases htype with ht | ht
  · exact absurd (typeFieldIs_unique e "newToolCall" "unexpectedPendingTool" hfirst ht)
      (by decide)
  · exact absurd (typeFieldIs_unique e "newToolCall" "mismatchedToolCall" hfirst ht)
      (by decide)

/-- C5 (amended): in the run-code-server engine, an evaluation settling with an
engine-internal sentinel other than newToolCall — the unexpectedPendingTool
sentinel, produced when the input entry at the cursor is still pending, or a
mismatchedToolCall-shaped error — is returned as `code_result{error}`, not
escalated; the legacy server engine instead throws on such errors. -/
theorem other_sentinels_classified_as_runtime_error (gen : Nat → String)
    (code : String) (prog : Prog) (ts : List ToolState) :
    (∀ e, runSettled gen prog ts = .error e →
      isUnexpectedPendingTool e = true ∨ isMismatchedToolCall e = true →
      runToolCode gen code prog ts = .code_result (.error e)) ∧
    (∀ s name args id n a, s.input.get? s.index = some (.pendingTool id n a) →
      toolCallStep gen s name args =
        (.reject (unexpectedPendingToolVal name args), s)) := by
  constructor
  · intro e hset hshape
    exact (runToolCode_shape_cases gen code prog ts).2.1 e hset
      (other_sentinels_not_new_tool_call e hshape)
  · intro s name args id n a hget
    unfold toolCallStep; rw [hget]

/-- Counterexample scoping C5 to the run-code-server engine: in the legacy
server engine, an input whose cursor entry is still pending makes the program
settle with the unexpectedPendingTool sentinel, and `runToolCode` throws
(`some errors are not new tool calls`) instead of returning a
`code_result{error}`. -/
theorem legacy_engine_throws_on_other_sentinels :
    legacyRunToolCode (fun n => "id" ++ toString n) "c"
        (.call "webSearch" (.obj [("query", .str "x")]) fun r =>
          match r with
          | .error e => .thr e
          | .ok v => .ret v)
        [.pendingTool "p" "webSearch" (.obj [("query", .str "x")])] =
      .error .someErrorsNotNewToolCalls ∧
    isUnexpectedPendingTool
      (unexpectedPendingToolVal "webSearch" (.obj [("query", .str "x")])) = true :=
  ⟨rfl, rfl⟩

/-- Closed instance of the amended C5: an input with a pending entry at the
cursor settles with the unexpectedPendingTool sentinel and the run-code-server
engine returns it as a runtime `code_result{error}`. -/
theorem other_sentinels_classified_witness :
    runToolCode (fun n => "id" ++ toString n) "c"
        (.call "webSearch" (.obj [("query", .str "x")]) fun r =>
          match r with
          | .error e => .thr e
          | .ok v => .ret v)
        [.pendingTool "p" "webSearch" (.obj [("query", .str "x")])] =
      .code_result (.error
        (unexpectedPendingToolVal "webSearch" (.obj [("query", .str "x")]))) :=
  (other_sentinels_classified_as_runtime_error (fun n => "id" ++ toString n) "c"
      (.call "webSearch" (.obj [("query", .str "x")]) fun r =>
        match r with
        | .error e => .thr e
        | .ok v => .ret v)
      [.pendingTool "p" "webSearch" (.obj [("query", .str "x")])]).1
    (unexpectedPendingToolVal "webSearch" (.obj [("query", .str "x")])) rfl
    (Or.inl rfl)

/-- One interceptor invocation under two identifier generators: the returned
instruction is identical (sentinels carry no id) and the successor states are
equal up to identifier erasure of the output. -/
theorem toolCallStep_idfree (g₁ g₂ : Nat → String) (s₁ s₂ : EngineState)
    (name : String) (args : Value)
    (hin : s₁.input = s₂.input) (hidx : s₁.index = s₂.index)
    (hfresh : s₁.fresh = s₂.fresh)
    (hout : s₁.output.map eraseId = s₂.output.map eraseId) :
    (toolCallStep g₁ s₁ name args).1 = (toolCallStep g₂ s₂ name args).1 ∧
      (toolCallStep g₁ s₁ name args).2.input = (toolCallStep g₂ s₂ name args).2.input ∧
      (toolCallStep g₁ s₁ name args).2.index = (toolCallStep g₂ s₂ name args).2.index ∧
      (toolCallStep g₁ s₁ name args).2.fresh = (toolCallStep g₂ s₂ name args).2.fresh ∧
      (toolCallStep g₁ s₁ name args).2.output.map eraseId =
        (toolCallStep g₂ s₂ name args).2.output.map eraseId := by
  have hget : s₁.input.get? s₁.index = s₂.input.get? s₂.index := by
    rw [hin, hidx]
  rcases hg : s₁.input.get? s₁.index with _ | t <;> rw [hg] at hget
  · have e₁ : toolCallStep g₁ s₁ name args =
        (.reject (newToolCallVal name args),
          { s₁ with
            output := s₁.output ++ [.pendingTool (g₁ s₁.fresh) name args]
            index := s₁.index + 1, fresh := s₁.fresh + 1 }) := by
      unfold toolCallStep; rw [hg]
    have e₂ : toolCallStep g₂ s₂ name args =
        (.reject (newToolCallVal name args),
          { s₂ with
            output := s₂.output ++ [.pendingTool (g₂ s₂.fresh) name args]
            index := s₂.index + 1, fresh := s₂.fresh + 1 }) := by
      unfold toolCallStep; rw [← hget]
    rw [e₁, e₂]
    refine ⟨rfl, hin, by rw [hidx], by rw [hfresh], ?_⟩
    simp only [List.map_append, hout, List.map_cons, List.map_nil, eraseId]
  · rcases t with ⟨id, n, a⟩ | ⟨id, r⟩ | ⟨id, e⟩
    · have e₁ : toolCallStep g₁ s₁ name args =
          (.reject (unexpectedPendingToolVal name args), s₁) := by
        unfold toolCallStep; rw [hg]
      have e₂ : toolCallStep g₂ s₂ name args =
          (.reject (unexpectedPendingToolVal name args), s₂) := by
        unfold toolCallStep; rw [← hget]
      rw [e₁, e₂]
      exact ⟨rfl, hin, hidx, hfresh, hout⟩
    · have e₁ : toolCallStep g₁ s₁ name args =
          (.resolve r,
            { s₁ with output := s₁.output ++ [.resolvedTool id r], index := s₁.index + 1 }) := by
        unfold toolCallStep; rw [hg]
      have e₂ : toolCallStep g₂ s₂ name args =
          (.resolve r,
            { s₂ with output := s₂.output ++ [.resolvedTool id r], index := s₂.index + 1 }) := by
        unfold toolCallStep; rw [← hget]
      rw [e₁, e₂]
      refine ⟨rfl, hin, by rw [hidx], hfresh, ?_⟩
      simp only [List.map_append, hout, List.map_cons, List.map_nil, eraseId]
    · have e₁ : toolCallStep g₁ s₁ name args =
          (.reject e,
            { s₁ with output := s₁.output ++ [.rejectedTool id e], index := s₁.index + 1 }) := by
        unfold toolCallStep; rw [hg]
      have e₂ : toolCallStep g₂ s₂ name args =
          (.reject e,
            { s₂ with output := s₂.output ++ [.rejectedTool id e], index := s₂.index + 1 }) := by
        unfold toolCallStep; rw [← hget]
      rw [e₁, e₂]
      refine ⟨rfl, hin, by rw [hidx], hfresh, ?_⟩
      simp only [List.map_append, hout, List.map_cons, List.map_nil, eraseId]

/-- Two runs of the same program over the same input differ only in the minted
pending identifiers: the settled outcome is equal, and the final outputs are
equal after identifier erasure. -/
theorem runProg_idfree (p : Prog) (g₁ g₂ : Nat → String) (s₁ s₂ : EngineState)
    (hin : s₁.input = s₂.input) (hidx : s₁.index = s₂.index)
    (hfresh : s₁.fresh = s₂.fresh)
    (hout : s₁.output.map eraseId = s₂.output.map eraseId) :
    (runProgWith (toolCallStep g₁) p s₁).1 = (runProgWith (toolCallStep g₂) p s₂).1 ∧
      (runProgWith (toolCallStep g₁) p s₁).2.output.map eraseId =
        (runProgWith (toolCallStep g₂) p s₂).2.output.map eraseId := by
  induction p generalizing s₁ s₂ with
  | ret v => exact ⟨rfl, hout⟩
  | thr v => exact ⟨rfl, hout⟩
  | call name args k ih =>
      obtain ⟨hi, hin', hidx', hfresh', hout'⟩ :=
        toolCallStep_idfree g₁ g₂ s₁ s₂ name args hin hidx hfresh hout
      simp only [runProgWith]
      rw [hi]
      exact ih _ _ _ hin' hidx' hfresh' hout'

/-- C3: replay determinism up to minted identifiers.  For the same
`(code, toolState)` and program semantics, two evaluations — here with
arbitrary, possibly different identifier generators — produce identical
outcomes after erasing the pending identifiers: equal tags, equal success and
error values, and identifier-free structurally equal output tool-states. -/
theorem replay_deterministic_up_to_ids (g₁ g₂ : Nat → String) (code : String)
    (prog : Prog) (ts : List ToolState) :
    eraseOutcome (runToolCode g₁ code prog ts) =
      eraseOutcome (runToolCode g₂ code prog ts) := by
  obtain ⟨hset, hout⟩ :=
    runProg_idfree prog g₁ g₂ (initState ts) (initState ts) rfl rfl rfl rfl
  unfold runToolCode classify runSettled runOutput
  rw [hset]
  rcases (runProgWith (toolCallStep g₂) prog (initState ts)).1 with v | e
  · rfl
  · rcases hshape : isNewToolCall e with _ | _ <;>
      simp only [hshape, Bool.false_eq_true, if_false, if_true]
    simp only [eraseOutcome]
    rw [hout]

/-- C4 (amended): for every evaluation returning a partial outcome in which at
least one new pending entry was recorded, the output tool-state is the input
followed by the minted pending entries: every resolved/rejected input entry
appears in the output unchanged and in its original order, none is mutated or
removed, and all new pending entries come after them. -/
theorem partial_output_extends_input (gen : Nat → String) (code : String)
    (prog : Prog) (ts : List ToolState) (out : List ToolState)
    (hrun : runToolCode gen code prog ts = .partialEvaluation code out)
    (hpend : ∃ e ∈ out, e.isPending = true) :
    ∃ minted, out = ts ++ minted ∧ minted ≠ [] ∧ ∀ m ∈ minted, m.isPending = true := by
  obtain ⟨e, hmem, he⟩ := hpend
  obtain ⟨e', -, -, hout⟩ :=
    (runToolCode_shape_cases gen code prog ts).2.2 out hrun
  subst hout
  have hinv := engineInv_run gen ts prog (initState ts) (engineInv_init ts)
  obtain ⟨-, hsettled, minted, houteq, -, hpendall, hpast⟩ := hinv
  unfold runOutput at hmem ⊢
  rw [houteq] at hmem ⊢
  have hminted : minted ≠ [] := by
    intro hnil
    subst hnil
    rw [List.append_nil] at hmem
    have hs := hsettled e hmem
    rcases e with ⟨a, b, c⟩ | ⟨a, b⟩ | ⟨a, b⟩
    · cases hs
    · cases he
    · cases he
  have htake : ts.take (runProgWith (toolCallStep gen) prog (initState ts)).2.index = ts :=
    List.take_of_length_le (hpast hminted)
  rw [htake]
  exact ⟨minted, rfl, hminted, hpendall⟩

/-- Counterexample to C4 as stated: a program that consumes only the first of
two resolved input entries and then throws a fabricated sentinel yields a
partial outcome whose output tool-state drops the second input entry — not a
prefix-extension of the input. -/
theorem partial_not_extending_counterexample :
    runToolCode (fun n => "id" ++ toString n) "c"
        (.call "t" (.obj []) fun _ => .thr (newToolCallVal "fake" (.obj [])))
        [.resolvedTool "a" (.str "1"), .resolvedTool "b" (.str "2")] =
      .partialEvaluation "c" [.resolvedTool "a" (.str "1")] ∧
    (.resolvedTool "b" (.str "2")) ∉ ([.resolvedTool "a" (.str "1")] : List ToolState) := by
  refine ⟨rfl, ?_⟩
  simp

/-- Closed instance of the amended C4: a genuine interception on a one-entry
resolved input extends it by one minted pending entry. -/
theorem partial_output_extends_input_witness :
    ∃ minted,
      [ToolState.resolvedTool "a" (.str "1"),
        .pendingTool "id0" "summarize" (.obj [("text", .str "1")])] =
        [ToolState.resolvedTool "a" (.str "1")] ++ minted ∧
      minted ≠ [] ∧ ∀ m ∈ minted, m.isPending = true :=
  partial_output_extends_input (fun n => "id" ++ toString n) "c"
    (.call "webSearch" (.obj []) fun r =>
      match r with
      | .ok v => .call "summarize" (.obj [("text", v)]) fun r' =>
          match r' with
          | .error e => .thr e
          | .ok w => .ret w
      | .error e => .thr e)
    [.resolvedTool "a" (.str "1")]
    [.resolvedTool "a" (.str "1"),
      .pendingTool "id0" "summarize" (.obj [("text", .str "1")])]
    rfl
    ⟨.pendingTool "id0" "summarize" (.obj [("text", .str "1")]),
      List.mem_cons_of_mem _ (List.mem_singleton.mpr rfl), rfl⟩

/-- A `flatMap` whose function returns at most a singleton equals the
corresponding `filterMap`. -/
theorem flatMap_singleton_eq_filterMap (l : List α) (f : α → List β) (g : α → Option β)
    (h : ∀ a, f a = (g a).elim [] (fun b => [b])) :
    l.flatMap f = l.filterMap g := by
  induction l with
  | nil => rfl
  | cons a l ih =>
      rw [List.flatMap_cons, List.filterMap_cons, ih, h a]
      rcases g a with _ | b <;> rfl

/-- C9: the assistant message surfacing a partial outcome carries as its tool
calls exactly the pending entries of the tool-state, in order, each with its
recorded id, function name and arguments (and its position index), and no tool
call for any resolved or rejected entry: `toolStatesToAssistantMessage` equals
the spec-side pending projection. -/
theorem pending_projection_exact (toolStates : List ToolState) :
    toolStatesToAssistantMessage toolStates =
      .assistant (some "") (some (specPendingToolCalls toolStates)) := by
  unfold toolStatesToAssistantMessage specPendingToolCalls
  rw [flatMap_singleton_eq_filterMap]
  intro p
  rcases p with ⟨i, t⟩
  rcases t with ⟨id, n, a⟩ | ⟨id, r⟩ | ⟨id, e⟩ <;> rfl

/-- A successful `mapE` preserves length. -/
theorem mapE_ok_length (f : α → Except ε β) (l : List α) (bs : List β)
    (h : mapE f l = .ok bs) : bs.length = l.length := by
  induction l generalizing bs with
  | nil => cases h; rfl
  | cons a l ih =>
      unfold mapE at h
      rcases hf : f a with e | b <;> rw [hf] at h
      · cases h
      · rcases hm : mapE f l with e | bs' <;> rw [hm] at h
        · cases h
        · cases h
          simp [ih bs' hm]

/-- A successful `mapE` maps the k-th input to the k-th output. -/
theorem mapE_ok_get (f : α → Except ε β) (l : List α) (bs : List β)
    (h : mapE f l = .ok bs) (k : Nat) (a : α) (ha : l.get? k = some a) :
    ∃ b, bs.get? k = some b ∧ f a = .ok b := by
  induction l generalizing bs k with
  | nil => cases ha
  | cons x l ih =>
      unfold mapE at h
      rcases hf : f x with e | b <;> rw [hf] at h
      · cases h
      · rcases hm : mapE f l with e | bs' <;> rw [hm] at h
        · cases h
        · cases h
          rcases k with _ | k
          · cases ha
            exact ⟨b, rfl, hf⟩
          · exact ih bs' hm k ha

/-- Every element of a successful `mapE`'s output comes from some input. -/
theorem mapE_mem (f : α → Except ε β) (l : List α) (bs : List β)
    (h : mapE f l = .ok bs) (b : β) (hb : b ∈ bs) : ∃ a ∈ l, f a = .ok b := by
  induction l generalizing bs with
  | nil => cases h; cases hb
  | cons x l ih =>
      unfold mapE at h
      rcases hf : f x with e | b' <;> rw [hf] at h
      · cases h
      · rcases hm : mapE f l with e | bs' <;> rw [hm] at h
        · cases h
        · cases h
          rcases List.mem_cons.mp hb with rfl | hb'
          · exact ⟨x, List.mem_cons_self x l, hf⟩
          · obtain ⟨a, ha, hfa⟩ := ih bs' hm hb'
            exact ⟨a, List.mem_cons_of_mem x ha, hfa⟩

/-- If `mapE`'s function throws on some input element, `mapE` throws. -/
theorem mapE_error_of_mem (f : α → Except ε β) (l : List α) (a : α) (e : ε)
    (ha : a ∈ l) (hf : f a = .error e) : ∃ e', mapE f l = .error e' := by
  induction l with
  | nil => cases ha
  | cons x l ih =>
      rcases List.mem_cons.mp ha with rfl | ha'
      · exact ⟨e, by unfold mapE; rw [hf]⟩
      · unfold mapE
        rcases hx : f x with ex | b
        · exact ⟨ex, rfl⟩
        · obtain ⟨e', he'⟩ := ih ha'
          exact ⟨e', by rw [he']⟩

/-- A tool-state entry built by `mttsEntry` is pending or resolved, never
rejected. -/
theorem mttsEntry_not_rejected (slice : List ClientMessage) (tc : CToolCall)
    (e : ToolState) (h : mttsEntry slice tc = .ok e) : e.isRejected = false := by
  unfold mttsEntry at h
  rcases hl : lookupToolMessage slice tc.ctcId with _ | c <;> rw [hl] at h
  · rcases tc with ⟨id, c⟩ | ⟨id, n, a, i⟩
    · cases h
    · cases h; rfl
  · rcases c with v | s | v <;> try cases h
    rfl

/-- C6: building tool-state from an open-block slice.  After cutting the
history at the latest assistant message without tool calls (`mttsSlice`),
every collected assistant tool call yields exactly one entry of a successful
result, in order; a function tool call with no matching tool message yields
`pending{id, name, args}`; a matching tool message whose content is a
JSON-parsable string yields `resolved{id, parsed content}`; non-string or
non-JSON content makes the entry — and hence the whole build — throw a fatal
classification error; and no entry this path produces is ever `rejected`. -/
theorem messages_to_tool_state_spec (history : List ClientMessage) :
    (∀ ts, messagesToToolState history = .ok ts →
      ts.length = (mttsToolCalls history).length ∧
      (∀ k tc, (mttsToolCalls history).get? k = some tc →
        ∃ e, ts.get? k = some e ∧ mttsEntry (mttsSlice history) tc = .ok e) ∧
      (∀ e ∈ ts, e.isRejected = false)) ∧
    (∀ id name args idx,
      lookupToolMessage (mttsSlice history) id = none →
      mttsEntry (mttsSlice history) (.func id name args idx) =
        .ok (.pendingTool id name args)) ∧
    (∀ tc v, lookupToolMessage (mttsSlice history) tc.ctcId = some (.parses v) →
      mttsEntry (mttsSlice history) tc = .ok (.resolvedTool tc.ctcId v)) ∧
    (∀ tc v, lookupToolMessage (mttsSlice history) tc.ctcId = some (.nonString v) →
      mttsEntry (mttsSlice history) tc = .error .contentNotString) ∧
    (∀ tc s, lookupToolMessage (mttsSlice history) tc.ctcId = some (.nonJson s) →
      mttsEntry (mttsSlice history) tc = .error .contentNotJson) ∧
    (∀ tc e, tc ∈ mttsToolCalls history →
      mttsEntry (mttsSlice history) tc = .error e →
      ∃ e', messagesToToolState history = .error e') := by
  refine ⟨?_, ?_, ?_, ?_, ?_, ?_⟩
  · intro ts hok
    refine ⟨mapE_ok_length _ _ _ hok, ?_, ?_⟩
    · intro k tc htc
      exact mapE_ok_get _ _ _ hok k tc htc
    · intro e he
      obtain ⟨tc, -, hfa⟩ := mapE_mem _ _ _ hok e he
      exact mttsEntry_not_rejected _ tc e hfa
  · intro id name args idx hl
    unfold mttsEntry
    rw [show (CToolCall.func id name args idx).ctcId = id from rfl, hl]
  · intro tc v hl
    unfold mttsEntry
    rw [hl]
  · intro tc v hl
    unfold mttsEntry
    rw [hl]
  · intro tc s hl
    unfold mttsEntry
    rw [hl]
  · intro tc e hmem herr
    exact mapE_error_of_mem _ _ tc e hmem herr

/-- Closed instance of C6 on a two-call slice with one answered call: the
answered call resolves to the parsed content, the unanswered one stays
pending, and no entry is rejected. -/
theorem messages_to_tool_state_spec_witness :
    ([ToolState.resolvedTool "1" (.arr [.str "hit"]),
        .pendingTool "2" "summarize" (.obj [("text", .str "hit")])].length =
      (mttsToolCalls
        [.assistant (some "")
          (some [.func "1" "webSearch" (.obj [("query", .str "news")]) none,
                 .func "2" "summarize" (.obj [("text", .str "hit")]) none]),
         .tool "1" (.parses (.arr [.str "hit"]))]).length) ∧
    (∀ e ∈ [ToolState.resolvedTool "1" (.arr [.str "hit"]),
        .pendingTool "2" "summarize" (.obj [("text", .str "hit")])],
      e.isRejected = false) :=
  ⟨((messages_to_tool_state_spec
      [.assistant (some "")
        (some [.func "1" "webSearch" (.obj [("query", .str "news")]) none,
               .func "2" "summarize" (.obj [("text", .str "hit")]) none]),
       .tool "1" (.parses (.arr [.str "hit"]))]).1
      [.resolvedTool "1" (.arr [.str "hit"]),
       .pendingTool "2" "summarize" (.obj [("text", .str "hit")])] rfl).1,
   ((messages_to_tool_state_spec
      [.assistant (some "")
        (some [.func "1" "webSearch" (.obj [("query", .str "news")]) none,
               .func "2" "summarize" (.obj [("text", .str "hit")]) none]),
       .tool "1" (.parses (.arr [.str "hit"]))]).1
      [.resolvedTool "1" (.arr [.str "hit"]),
       .pendingTool "2" "summarize" (.obj [("text", .str "hit")])] rfl).2.2⟩

/-- A last code tool call only exists when a code-assistant index exists. -/
theorem lastToolCallCode_some_imp (messages : List ClientMessage) (id code : String)
    (h : lastToolCallCodeOf messages = some (id, code)) :
    lastCodeIndexOf messages ≠ -1 := by
  intro hneg
  unfold lastToolCallCodeOf at h
  rw [if_pos hneg] at h
  cases h

/-- Counterexample to C8 as stated: no history at all makes
`parseClientMessages` return the `result_with_no_code_block` error — the
branch is unreachable, because the guard already sent every history without a
code tool call to the llm mode. -/
theorem no_result_without_code_error :
    ¬ ∃ messages, parseClientMessages messages =
      .ok (.modeError .result_with_no_code_block) := by
  rintro ⟨messages, h⟩
  unfold parseClientMessages at h
  rcases hltcc : lastToolCallCodeOf messages with _ | ⟨id, code⟩ <;>
    rw [hltcc] at h <;> dsimp only at h
  · rcases hc : clientToServerMessages messages with e | l <;>
      rw [hc] at h <;> cases h
  · rcases hguard : decide (lastCodeIndexOf messages = -1 ∧
        lastCodeResultIndexOf messages = -1) with _ | _
    · rw [if_neg (of_decide_eq_false hguard)] at h
      rcases hneg : decide (lastCodeIndexOf messages = -1) with _ | _
      · rw [if_neg (of_decide_eq_false hneg)] at h
        split at h
        · split at h
          · rcases hm : messagesToToolState
                (messages.drop ((lastCodeIndexOf messages).toNat + 1)) with e | ts <;>
              rw [hm] at h <;> cases h
          · cases h
        · rcases hc : clientToServerMessages messages with e | l <;>
            rw [hc] at h <;> cases h
      · exact absurd (of_decide_eq_true hneg) (lastToolCallCode_some_imp _ _ _ hltcc)
    · rw [if_pos (of_decide_eq_true hguard)] at h
      rcases hc : clientToServerMessages messages with e | l <;>
        rw [hc] at h <;> cases h

/-- C8 (amended): the only error classification `parseClientMessages` returns
is `code_slice_containing_unexpected_messages` — here on a history whose open
block is followed by a user message; a code-result (tool message) without a
preceding code block is instead sent to the llm branch, where
`clientToServerMessages` throws the tool-outside-code protocol violation.  The
`result_with_no_code_block` branch is dead code. -/
theorem parse_error_modes :
    parseClientMessages
        [.assistant (some "") (some [.code "1" "async function main() {}"]),
         .user "hi"] =
      .ok (.modeError .code_slice_containing_unexpected_messages) ∧
    parseClientMessages [.tool "1" (.parses (.str "ok"))] =
      .error .toolOutsideCode := ⟨rfl, rfl⟩

/-- One-step equation of `findLastIndex`. -/
theorem findLastIndex_cons (p : α → Bool) (x : α) (xs : List α) :
    findLastIndex p (x :: xs) =
      (if findLastIndex p xs = -1 then (if p x then 0 else -1)
       else findLastIndex p xs + 1) := rfl

/-- `findLastIndex` is at least `-1`. -/
theorem findLastIndex_ge_neg1 (p : α → Bool) (l : List α) :
    -1 ≤ findLastIndex p l := by
  induction l with
  | nil => exact le_refl _
  | cons x xs ih =>
      rw [findLastIndex_cons]
      split <;> [skip; omega]
      split <;> omega

/-- `findLastIndex` is below the length. -/
theorem findLastIndex_lt_length (p : α → Bool) (l : List α) :
    findLastIndex p l < (l.length : Int) := by
  induction l with
  | nil => simp [findLastIndex]
  | cons x xs ih =>
      rw [findLastIndex_cons]
      simp only [List.length_cons]
      split
      · split <;> omega
      · push_cast
        omega

/-- `findLastIndex` is `-1` exactly when no element satisfies the predicate. -/
theorem findLastIndex_eq_neg1_iff (p : α → Bool) (l : List α) :
    findLastIndex p l = -1 ↔ ∀ x ∈ l, p x = false := by
  induction l with
  | nil => simp [findLastIndex]
  | cons x xs ih =>
      rw [findLastIndex_cons]
      constructor
      · intro h y hy
        by_cases hr : findLastIndex p xs = -1
        · rw [if_pos hr] at h
          rcases List.mem_cons.mp hy with rfl | hy'
          · by_contra hp
            rw [if_pos (by revert hp; cases p y <;> simp)] at h
            cases h
          · exact (ih.mp hr) y hy'
        · rw [if_neg hr] at h
          have := findLastIndex_ge_neg1 p xs
          omega
      · intro h
        have hxs : findLastIndex p xs = -1 :=
          ih.mpr fun y hy => h y (List.mem_cons_of_mem x hy)
        rw [if_pos hxs, if_neg (by rw [h x (List.mem_cons_self x xs)]; simp)]

/-- A non-negative `findLastIndex` decomposes the list at the found position,
with nothing satisfying the predicate after it. -/
theorem findLastIndex_decomp (p : α → Bool) (l : List α)
    (h0 : 0 ≤ findLastIndex p l) :
    ∃ pre x tail, l = pre ++ x :: tail ∧
      (pre.length : Int) = findLastIndex p l ∧ p x = true ∧
      ∀ y ∈ tail, p y = false := by
  induction l with
  | nil => simp [findLastIndex] at h0
  | cons x xs ih =>
      rw [findLastIndex_cons] at h0 ⊢
      by_cases hr : findLastIndex p xs = -1
      · rw [if_pos hr] at h0 ⊢
        by_cases hp : p x = true
        · rw [if_pos hp]
          exact ⟨[], x, xs, rfl, rfl, hp, (findLastIndex_eq_neg1_iff p xs).mp hr⟩
        · rw [if_neg hp] at h0
          omega
      · rw [if_neg hr] at h0 ⊢
        have h0' : 0 ≤ findLastIndex p xs := by
          have := findLastIndex_ge_neg1 p xs
          omega
        obtain ⟨pre, y, tail, heq, hlen, hpy, htail⟩ := ih h0'
        refine ⟨x :: pre, y, tail, by rw [heq]; rfl, ?_, hpy, htail⟩
        simp only [List.length_cons]
        push_cast
        omega

/-- The element at the split position of an append-cons decomposition. -/
theorem get?_append_cons (pre : List α) (x : α) (tail : List α) :
    (pre ++ x :: tail).get? pre.length = some x := by
  rw [List.get?_append_right (le_refl _)]
  simp

/-- Dropping past the split element of an append-cons decomposition. -/
theorem drop_append_cons (pre : List α) (x : α) (tail : List α) :
    (pre ++ x :: tail).drop (pre.length + 1) = tail := by
  have heq : pre ++ x :: tail = (pre ++ [x]) ++ tail := by simp
  have hlen : pre.length + 1 = (pre ++ [x]).length := by simp
  rw [heq, hlen]
  exact List.drop_left _ _

/-- On a well-formed history the client-to-server projection never throws: in
the normal state, and inside a code block in the corresponding code context. -/
theorem ctos_of_wf (msgs : List ClientMessage) : ∀ used : List String,
    (wfGo used .normal msgs = true → ∃ out, ctosGo .normal msgs = .ok out) ∧
    (∀ cid asked, wfGo used (.inBlock cid asked) msgs = true →
      ∃ out, ctosGo (.code cid) msgs = .ok out) := by
  induction msgs with
  | nil => exact fun used => ⟨fun _ => ⟨[], rfl⟩, fun cid asked _ => ⟨[], rfl⟩⟩
  | cons m rest ih =>
      intro used
      constructor
      · intro hwf
        rcases m with c | c | ⟨content, tcs⟩ | ⟨tid, cnt⟩
        · obtain ⟨out, hout⟩ := (ih used).1 hwf
          exact ⟨.system c :: out, by simp only [ctosGo]; rw [hout]; rfl⟩
        · obtain ⟨out, hout⟩ := (ih used).1 hwf
          exact ⟨.user c :: out, by simp only [ctosGo]; rw [hout]; rfl⟩
        · simp only [wfGo] at hwf
          rcases htc : tcs.getD [] with _ | ⟨tc, tcs'⟩ <;> rw [htc] at hwf
          · obtain ⟨out, hout⟩ := (ih used).1 hwf
            refine ⟨.assistant content tcs :: out, ?_⟩
            simp only [ctosGo, htc, findLastCodeCall, List.all_nil, if_true]
            rw [hout]
            rfl
          · rcases tc with ⟨id, c⟩ | ⟨id, n, a, i⟩
            · rcases tcs' with _ | ⟨tc2, tcs''⟩
              · rw [Bool.and_eq_true] at hwf
                obtain ⟨out, hout⟩ := ((ih (id :: used)).2 id []) hwf.2
                refine ⟨.assistant (some "")
                  (some [.func id "run_typescript" (.str (encodeCodeArg c)) none]) :: out, ?_⟩
                simp only [ctosGo, htc, findLastCodeCall]
                rw [hout]
                rfl
              · exact Bool.noConfusion hwf
            · exact Bool.noConfusion hwf
        · cases hwf
      · intro cid asked hwf
        rcases m with c | c | ⟨content, tcs⟩ | ⟨tid, cnt⟩
        · cases hwf
        · cases hwf
        · simp only [wfGo] at hwf
          rcases htc : tcs.getD [] with _ | ⟨tc, tcs'⟩ <;> rw [htc] at hwf
          · cases hwf
          · rw [Bool.and_eq_true, Bool.and_eq_true, Bool.and_eq_true] at hwf
            obtain ⟨-, hrest⟩ := hwf
            obtain ⟨out, hout⟩ :=
              ((ih ((tc :: tcs').map CToolCall.ctcId ++ used)).2 cid
                (asked ++ (tc :: tcs').map CToolCall.ctcId)) (by rw [← htc] at hrest ⊢; exact hrest)
            exact ⟨out, by simp only [ctosGo]; rw [hout]⟩
        · simp only [wfGo] at hwf
          by_cases htid : tid = cid
          · rw [if_pos htid] at hwf
            obtain ⟨out, hout⟩ := (ih used).1 hwf
            refine ⟨.tool tid cnt :: out, ?_⟩
            simp only [ctosGo, if_pos htid]
            rw [hout]
            rfl
          · rw [if_neg htid] at hwf
            rw [Bool.and_eq_true, Bool.and_eq_true] at hwf
            obtain ⟨-, hrest⟩ := hwf
            obtain ⟨out, hout⟩ := ((ih used).2 cid asked) hrest
            exact ⟨out, by simp only [ctosGo, if_neg htid]; rw [hout]⟩

/-- On a well-formed history with no code-block assistant message, the
client-to-server projection is the identity. -/
theorem ctos_fixpoint_of_code_free (msgs : List ClientMessage) : ∀ used : List String,
    wfGo used .normal msgs = true → noCodeAssistant msgs = true →
    ctosGo .normal msgs = .ok msgs := by
  induction msgs with
  | nil => exact fun _ _ _ => rfl
  | cons m rest ih =>
      intro used hwf hnc
      unfold noCodeAssistant at hnc
      rw [List.all_cons, Bool.and_eq_true] at hnc
      obtain ⟨hm, hrest⟩ := hnc
      rcases m with c | c | ⟨content, tcs⟩ | ⟨tid, cnt⟩
      · rw [show ctosGo .normal (.system c :: rest) =
            (do
              let tail ← ctosGo .normal rest
              Except.ok (.system c :: tail)) from rfl,
          ih used hwf hrest]
        rfl
      · rw [show ctosGo .normal (.user c :: rest) =
            (do
              let tail ← ctosGo .normal rest
              Except.ok (.user c :: tail)) from rfl,
          ih used hwf hrest]
        rfl
      · simp only [wfGo] at hwf
        rcases htc : tcs.getD [] with _ | ⟨tc, tcs'⟩ <;> rw [htc] at hwf
        · simp only [ctosGo, htc, findLastCodeCall, List.all_nil, if_true]
          rw [ih used hwf hrest]
          rfl
        · rcases tc with ⟨id, c⟩ | ⟨id, n, a, i⟩
          · exfalso
            simp only [isCodeAssistant, ClientMessage.msgToolCalls, htc] at hm
            simp only [CToolCall.isCode, List.any_cons, Bool.true_or, Bool.and_true] at hm
            exact Bool.noConfusion hm
          · rcases tcs' with _ | ⟨tc2, tcs''⟩ <;> exact Bool.noConfusion hwf
      · cases hwf

/-- A function tool call is not a code tool call. -/
theorem isFunc_not_isCode (tc : CToolCall) (h : tc.isFunc = true) : tc.isCode = false := by
  rcases tc with _ | _
  · cases h
  · rfl

/-- Splitting a well-formed history at a code-assistant message: the scanner
reaches it in the normal state, it carries exactly one code tool call with an
unseen id, the rest of the history is well-formed inside that block, and every
tool message before the split carries an already-seen id. -/
theorem wf_split (pre : List ClientMessage) : ∀ (used : List String) (st : WFSt)
    (x : ClientMessage) (tail : List ClientMessage),
    wfGo used st (pre ++ x :: tail) = true →
    isCodeAssistant x = true →
    (∀ cid asked, st = .inBlock cid asked → cid ∈ used ∧ ∀ a ∈ asked, a ∈ used) →
    ∃ (used' : List String) (content : Option String) (id c : String),
      x = .assistant content (some [.code id c]) ∧
      wfGo (id :: used') (.inBlock id []) tail = true ∧
      ¬ id ∈ used' ∧
      (∀ u ∈ used, u ∈ used') ∧
      (∀ tid cnt, (.tool tid cnt : ClientMessage) ∈ pre → tid ∈ used') := by
  induction pre with
  | nil =>
      intro used st x tail hwf hx hst
      rcases x with c | c | ⟨content, tcs⟩ | ⟨tid, cnt⟩
      · exact Bool.noConfusion hx
      · exact Bool.noConfusion hx
      · rcases st with _ | ⟨cid, asked⟩
        · simp only [List.nil_append, wfGo] at hwf
          rcases htc : tcs.getD [] with _ | ⟨tc, tcs'⟩ <;> rw [htc] at hwf
          · exfalso
            simp only [isCodeAssistant, ClientMessage.msgToolCalls, htc,
              List.any_nil, Bool.and_false] at hx
            exact Bool.noConfusion hx
          · rcases tc with ⟨id, c⟩ | ⟨id, n, a, i⟩
            · rcases tcs' with _ | ⟨tc2, tcs''⟩
              · rw [Bool.and_eq_true] at hwf
                obtain ⟨hfresh, hwf2⟩ := hwf
                have htcs : tcs = some [CToolCall.code id c] := by
                  rcases tcs with _ | l
                  · cases htc
                  · rw [Option.getD_some] at htc
                    rw [htc]
                refine ⟨used, content, id, c, by rw [htcs], hwf2, ?_, fun u hu => hu,
                  fun tid cnt hmem => absurd hmem (List.not_mem_nil _)⟩
                intro hmem
                have hc : used.contains id = true := List.elem_eq_true_of_mem hmem
                rw [hc] at hfresh
                exact Bool.noConfusion hfresh
              · exact Bool.noConfusion hwf
            · rcases tcs' with _ | ⟨tc2, tcs''⟩ <;> exact Bool.noConfusion hwf
        · exfalso
          simp only [List.nil_append, wfGo] at hwf
          rcases htc : tcs.getD [] with _ | ⟨tc, tcs'⟩ <;> rw [htc] at hwf
          · exact Bool.noConfusion hwf
          · rw [Bool.and_eq_true, Bool.and_eq_true, Bool.and_eq_true] at hwf
            obtain ⟨⟨⟨hall, -⟩, -⟩, -⟩ := hwf
            simp only [isCodeAssistant, ClientMessage.msgToolCalls, htc,
              Bool.true_and] at hx
            obtain ⟨y, hy, hyc⟩ := List.any_eq_true.mp hx
            have hyf := List.all_eq_true.mp hall y hy
            rw [isFunc_not_isCode y hyf] at hyc
            exact Bool.noConfusion hyc
      · exact Bool.noConfusion hx
  | cons m pre' ih =>
      intro used st x tail hwf hx hst
      rcases st with _ | ⟨cid, asked⟩
      · rcases m with c | c | ⟨content, tcs⟩ | ⟨tid, cnt⟩
        · obtain ⟨used', content', id, c', hxeq, hwf2, hfresh, hmono, hpretool⟩ :=
            ih used .normal x tail hwf hx hst
          exact ⟨used', content', id, c', hxeq, hwf2, hfresh, hmono,
            fun tid cnt hmem => hpretool tid cnt (by
              rcases List.mem_cons.mp hmem with heq | hmem'
              · cases heq
              · exact hmem')⟩
        · obtain ⟨used', content', id, c', hxeq, hwf2, hfresh, hmono, hpretool⟩ :=
            ih used .normal x tail hwf hx hst
          exact ⟨used', content', id, c', hxeq, hwf2, hfresh, hmono,
            fun tid cnt hmem => hpretool tid cnt (by
              rcases List.mem_cons.mp hmem with heq | hmem'
              · cases heq
              · exact hmem')⟩
        · simp only [List.cons_append, wfGo] at hwf
          rcases htc : tcs.getD [] with _ | ⟨tc, tcs'⟩ <;> rw [htc] at hwf
          · obtain ⟨used', content', id, c, hxeq, hwf2, hfresh, hmono, hpretool⟩ :=
              ih used .normal x tail hwf hx hst
            exact ⟨used', content', id, c, hxeq, hwf2, hfresh, hmono,
              fun tid cnt hmem => hpretool tid cnt (by
                rcases List.mem_cons.mp hmem with heq | hmem'
                · cases heq
                · exact hmem')⟩
          · rcases tc with ⟨id2, c2⟩ | ⟨id2, n, a, i⟩
            · rcases tcs' with _ | ⟨tc2, tcs''⟩
              · rw [Bool.and_eq_true] at hwf
                obtain ⟨-, hwf2⟩ := hwf
                obtain ⟨used', content', id, c, hxeq, hwf3, hfresh, hmono, hpretool⟩ :=
                  ih (id2 :: used) (.inBlock id2 []) x tail hwf2 hx (by
                    intro cid asked heq
                    cases heq
                    exact ⟨List.mem_cons_self _ _, fun a ha => absurd ha (List.not_mem_nil _)⟩)
                exact ⟨used', content', id, c, hxeq, hwf3, hfresh,
                  fun u hu => hmono u (List.mem_cons_of_mem _ hu),
                  fun tid cnt hmem => hpretool tid cnt (by
                    rcases List.mem_cons.mp hmem with heq | hmem'
                    · cases heq
                    · exact hmem')⟩
              · exact Bool.noConfusion hwf
            · rcases tcs' with _ | ⟨tc2, tcs''⟩ <;> exact Bool.noConfusion hwf
        · exact Bool.noConfusion hwf
      · obtain ⟨hcid, hasked⟩ := hst cid asked rfl
        rcases m with c | c | ⟨content, tcs⟩ | ⟨tid, cnt⟩
        · exact Bool.noConfusion hwf
        · exact Bool.noConfusion hwf
        · simp only [List.cons_append, wfGo] at hwf
          rcases htc : tcs.getD [] with _ | ⟨tc, tcs'⟩ <;> rw [htc] at hwf
          · exact Bool.noConfusion hwf
          · rw [Bool.and_eq_true, Bool.and_eq_true, Bool.and_eq_true] at hwf
            obtain ⟨⟨⟨-, -⟩, -⟩, hwf2⟩ := hwf
            obtain ⟨used', content', id, c, hxeq, hwf3, hfresh, hmono, hpretool⟩ :=
              ih ((tc :: tcs').map CToolCall.ctcId ++ used)
                (.inBlock cid (asked ++ (tc :: tcs').map CToolCall.ctcId)) x tail hwf2 hx (by
                  intro cid' asked' heq
                  cases heq
                  refine ⟨List.mem_append_right _ hcid, fun a ha => ?_⟩
                  rcases List.mem_append.mp ha with ha' | ha'
                  · exact List.mem_append_right _ (hasked a ha')
                  · exact List.mem_append_left _ ha')
            exact ⟨used', content', id, c, hxeq, hwf3, hfresh,
              fun u hu => hmono u (List.mem_append_right _ hu),
              fun tid cnt hmem => hpretool tid cnt (by
                rcases List.mem_cons.mp hmem with heq | hmem'
                · cases heq
                · exact hmem')⟩
        · simp only [List.cons_append, wfGo] at hwf
          by_cases htid : tid = cid
          · rw [if_pos htid] at hwf
            obtain ⟨used', content', id, c, hxeq, hwf3, hfresh, hmono, hpretool⟩ :=
              ih used .normal x tail hwf hx (by intro cid' asked' heq; cases heq)
            refine ⟨used', content', id, c, hxeq, hwf3, hfresh, hmono, ?_⟩
            intro tid' cnt' hmem
            rcases List.mem_cons.mp hmem with heq | hmem'
            · cases heq
              rw [htid]
              exact hmono cid hcid
            · exact hpretool tid' cnt' hmem'
          · rw [if_neg htid, Bool.and_eq_true, Bool.and_eq_true] at hwf
            obtain ⟨⟨hask, -⟩, hwf2⟩ := hwf
            obtain ⟨used', content', id, c, hxeq, hwf3, hfresh, hmono, hpretool⟩ :=
              ih used (.inBlock cid asked) x tail hwf2 hx hst
            refine ⟨used', content', id, c, hxeq, hwf3, hfresh, hmono, ?_⟩
            intro tid' cnt' hmem
            rcases List.mem_cons.mp hmem with heq | hmem'
            · cases heq
              exact hmono tid (hasked tid (List.mem_of_elem_eq_true hask))
            · exact hpretool tid' cnt' hmem'

/-- Inside a block that is never closed, every message is an assistant message
with non-empty function-only tool calls or an answering tool message with
JSON-parsable content. -/
theorem wf_open_block_shape (tail : List ClientMessage) : ∀ used cid asked,
    wfGo used (.inBlock cid asked) tail = true →
    (∀ m ∈ tail, isToolWithId cid m = false) →
    ∀ m ∈ tail, inBlockShapeOk m = true := by
  induction tail with
  | nil => exact fun _ _ _ _ _ m hm => absurd hm (List.not_mem_nil m)
  | cons m rest ih =>
      intro used cid asked hwf hno m' hm'
      rcases List.mem_cons.mp hm' with rfl | hmem
      · rcases m' with c | c | ⟨content, tcs⟩ | ⟨tid, cnt⟩
        · exact Bool.noConfusion hwf
        · exact Bool.noConfusion hwf
        · simp only [wfGo] at hwf
          rcases htc : tcs.getD [] with _ | ⟨tc, tcs'⟩ <;> rw [htc] at hwf
          · exact Bool.noConfusion hwf
          · rw [Bool.and_eq_true, Bool.and_eq_true, Bool.and_eq_true] at hwf
            obtain ⟨⟨⟨hall, -⟩, -⟩, -⟩ := hwf
            simp only [inBlockShapeOk, htc, List.isEmpty_cons, Bool.not_false,
              Bool.true_and]
            exact hall
        · simp only [wfGo] at hwf
          by_cases htid : tid = cid
          · exfalso
            have := hno (.tool tid cnt) (List.mem_cons_self _ _)
            simp only [isToolWithId, htid, beq_self_eq_true] at this
            exact Bool.noConfusion this
          · rw [if_neg htid, Bool.and_eq_true, Bool.and_eq_true] at hwf
            obtain ⟨⟨-, hpars⟩, -⟩ := hwf
            exact hpars
      · rcases m with c | c | ⟨content, tcs⟩ | ⟨tid, cnt⟩
        · exact Bool.noConfusion hwf
        · exact Bool.noConfusion hwf
        · simp only [wfGo] at hwf
          rcases htc : tcs.getD [] with _ | ⟨tc, tcs'⟩ <;> rw [htc] at hwf
          · exact Bool.noConfusion hwf
          · rw [Bool.and_eq_true, Bool.and_eq_true, Bool.and_eq_true] at hwf
            obtain ⟨-, hwf2⟩ := hwf
            exact ih _ _ _ hwf2 (fun y hy => hno y (List.mem_cons_of_mem _ hy)) m' hmem
        · simp only [wfGo] at hwf
          by_cases htid : tid = cid
          · rw [if_pos htid] at hwf
            exfalso
            have := hno (.tool tid cnt) (List.mem_cons_self _ _)
            simp only [isToolWithId, htid, beq_self_eq_true] at this
            exact Bool.noConfusion this
          · rw [if_neg htid, Bool.and_eq_true, Bool.and_eq_true] at hwf
            obtain ⟨-, hwf2⟩ := hwf
            exact ih _ _ _ hwf2 (fun y hy => hno y (List.mem_cons_of_mem _ hy)) m' hmem

/-- If every element maps to a success, `mapE` succeeds. -/
theorem mapE_ok_of_all (f : α → Except ε β) (l : List α)
    (h : ∀ a ∈ l, ∃ b, f a = .ok b) : ∃ bs, mapE f l = .ok bs := by
  induction l with
  | nil => exact ⟨[], rfl⟩
  | cons x l ih =>
      obtain ⟨b, hb⟩ := h x (List.mem_cons_self x l)
      obtain ⟨bs, hbs⟩ := ih fun a ha => h a (List.mem_cons_of_mem x ha)
      exact ⟨b :: bs, by unfold mapE; rw [hb, hbs]⟩

/-- A successful tool-message lookup finds an actual tool message of the slice
with the looked-up id. -/
theorem lookupToolMessage_mem (slice : List ClientMessage) (id : String)
    (c : ToolContent) (h : lookupToolMessage slice id = some c) :
    (.tool id c : ClientMessage) ∈ slice := by
  induction slice with
  | nil => cases h
  | cons m rest ih =>
      rw [show lookupToolMessage (m :: rest) id =
          (match lookupToolMessage rest id with
           | some c => some c
           | none => toolMessageEntry id m) from rfl] at h
      rcases hr : lookupToolMessage rest id with _ | c' <;> rw [hr] at h
      · unfold toolMessageEntry at h
        rcases m with cc | cc | ⟨content, tcs⟩ | ⟨tid, cnt⟩ <;> dsimp only at h <;>
          try cases h
        by_cases htid : tid = id
        · rw [if_pos htid] at h
          cases h
          rw [htid]
          exact List.mem_cons_self _ _
        · rw [if_neg htid] at h
          cases h
      · cases h
        exact List.mem_cons_of_mem _ (ih hr)

/-- In-block shape implies every message is an assistant or a tool message and
none is an assistant without tool calls. -/
theorem shape_roles (m : ClientMessage) (h : inBlockShapeOk m = true) :
    (m.isAssistant || m.isTool) = true ∧ isAssistantWithoutToolCalls m = false := by
  rcases m with c | c | ⟨content, tcs⟩ | ⟨tid, cnt⟩
  · cases h
  · cases h
  · refine ⟨rfl, ?_⟩
    simp only [inBlockShapeOk, Bool.and_eq_true] at h
    simp only [isAssistantWithoutToolCalls]
    rcases htc : tcs.getD [] with _ | ⟨tc, tcs'⟩
    · rw [htc] at h
      cases h.1
    · rfl
  · exact ⟨rfl, rfl⟩

/-- On a slice of in-block shape, `messagesToToolState` succeeds. -/
theorem mtts_ok_of_shape (tail : List ClientMessage)
    (hshape : ∀ m ∈ tail, inBlockShapeOk m = true) :
    ∃ ts, messagesToToolState tail = .ok ts := by
  have hfli : findLastIndex isAssistantWithoutToolCalls tail = -1 :=
    (findLastIndex_eq_neg1_iff _ _).mpr fun m hm => (shape_roles m (hshape m hm)).2
  have hslice : mttsSlice tail = tail := by
    unfold mttsSlice
    rw [hfli, if_pos rfl]
  have hfunc : ∀ tc ∈ mttsToolCalls tail, tc.isFunc = true := by
    intro tc htc
    unfold mttsToolCalls at htc
    rw [hslice] at htc
    obtain ⟨m, hm, htc'⟩ := List.mem_flatMap.mp htc
    have hsh := hshape m hm
    rcases m with c | c | ⟨content, tcs⟩ | ⟨tid, cnt⟩ <;> try cases hsh
    · simp only [ClientMessage.msgToolCalls] at htc'
      simp only [inBlockShapeOk, Bool.and_eq_true] at hsh
      exact List.all_eq_true.mp hsh.2 tc htc'
    · simp only [ClientMessage.msgToolCalls] at htc'
      exact absurd htc' (List.not_mem_nil tc)
  unfold messagesToToolState
  apply mapE_ok_of_all
  intro tc htc
  rw [hslice]
  rcases hl : lookupToolMessage tail tc.ctcId with _ | c
  · rcases tc with ⟨id, cd⟩ | ⟨id, n, a, i⟩
    · exact absurd (hfunc _ htc) (by simp [CToolCall.isFunc])
    · exact ⟨.pendingTool id n a, by
        unfold mttsEntry
        rw [show (CToolCall.func id n a i).ctcId = id from rfl] at hl ⊢
        rw [hl]⟩
  · have hmem := lookupToolMessage_mem tail tc.ctcId c hl
    have hsh := hshape _ hmem
    simp only [inBlockShapeOk] at hsh
    rcases c with v | sc | v <;> try cases hsh
    exact ⟨.resolvedTool tc.ctcId v, by unfold mttsEntry; rw [hl]⟩

/-- A message satisfying the tool-with-id test is that tool message. -/
theorem isToolWithId_elim (id : String) (m : ClientMessage)
    (h : isToolWithId id m = true) : ∃ cnt, m = .tool id cnt := by
  rcases m with c | c | ⟨content, tcs⟩ | ⟨tid, cnt⟩ <;> try cases h
  simp only [isToolWithId] at h
  exact ⟨cnt, by rw [eq_of_beq h]⟩

/-- On a well-formed client history, `parseClientMessages` neither throws nor
returns an error classification: it lands in the llm or the code mode. -/
theorem parse_wf_sound (messages : List ClientMessage)
    (hwf : WellFormed messages = true) :
    ∃ r, parseClientMessages messages = .ok r ∧ r.isLlmOrCode = true := by
  unfold WellFormed at hwf
  rcases hltcc : lastToolCallCodeOf messages with _ | ⟨id, c⟩
  · obtain ⟨out, hout⟩ := (ctos_of_wf messages []).1 hwf
    refine ⟨.modeLlm out, ?_, rfl⟩
    unfold parseClientMessages
    rw [hltcc]
    dsimp only
    rw [show clientToServerMessages messages = ctosGo .normal messages from rfl, hout]
    rfl
  · have hne : lastCodeIndexOf messages ≠ -1 := lastToolCallCode_some_imp _ _ _ hltcc
    have h0 : 0 ≤ lastCodeIndexOf messages := by
      have := findLastIndex_ge_neg1 isCodeAssistant messages
      unfold lastCodeIndexOf at hne ⊢
      omega
    obtain ⟨pre, x, tail, heq, hlen, hpx, htail⟩ :=
      findLastIndex_decomp isCodeAssistant messages h0
    have hidx : (lastCodeIndexOf messages).toNat = pre.length := by
      unfold lastCodeIndexOf
      omega
    have hget : messages.get? (lastCodeIndexOf messages).toNat = some x := by
      rw [hidx, heq]
      exact get?_append_cons pre x tail
    obtain ⟨used', content, id', c', hxeq, hwftail, hfresh, hmono, hpretool⟩ :=
      wf_split pre [] .normal x tail (by rw [← heq]; exact hwf) hpx
        (by intro cid asked h; cases h)
    have hltcc' : lastToolCallCodeOf messages = some (id', c') := by
      unfold lastToolCallCodeOf
      rw [if_neg hne, hget, hxeq]
      rfl
    rw [hltcc] at hltcc'
    injection hltcc' with hpair
    injection hpair with hid hc
    subst hid
    subst hc
    have hcri : lastCodeResultIndexOf messages =
        findLastIndex (isToolWithId id) messages := by
      unfold lastCodeResultIndexOf
      rw [hltcc]
    by_cases hj : findLastIndex (isToolWithId id) messages = -1
    · -- the block is open: code mode
      have htoolfree : ∀ m ∈ tail, isToolWithId id m = false := by
        intro m hm
        exact (findLastIndex_eq_neg1_iff _ _).mp hj m
          (by rw [heq]; exact List.mem_append_right _ (List.mem_cons_of_mem _ hm))
      have hshape := wf_open_block_shape tail (id :: used') id [] hwftail htoolfree
      have hslice : messages.drop ((lastCodeIndexOf messages).toNat + 1) = tail := by
        rw [hidx, heq]
        exact drop_append_cons pre x tail
      have hall : tail.all (fun m => m.isAssistant || m.isTool) = true :=
        List.all_eq_true.mpr fun m hm => (shape_roles m (hshape m hm)).1
      obtain ⟨ts, hts⟩ := mtts_ok_of_shape tail hshape
      refine ⟨.modeCode c id ts, ?_, rfl⟩
      unfold parseClientMessages
      rw [hltcc]
      dsimp only
      rw [if_neg (fun hand => hne hand.1), if_neg hne, hcri,
        if_pos (by rw [hj]; omega), hslice, if_pos hall, hts]
      rfl
    · -- the block is closed: llm mode
      have hj0 : 0 ≤ findLastIndex (isToolWithId id) messages := by
        have := findLastIndex_ge_neg1 (isToolWithId id) messages
        omega
      have hnotlt : ¬ lastCodeResultIndexOf messages < lastCodeIndexOf messages := by
        rw [hcri]
        intro hlt
        obtain ⟨pre2, y, tail2, heq2, hlen2, hpy, -⟩ :=
          findLastIndex_decomp (isToolWithId id) messages hj0
        obtain ⟨cnt, hy⟩ := isToolWithId_elim id y hpy
        unfold lastCodeIndexOf at hlt
        have hgety : messages.get? (findLastIndex (isToolWithId id) messages).toNat =
            some y := by
          rw [show (findLastIndex (isToolWithId id) messages).toNat = pre2.length by omega,
            heq2]
          exact get?_append_cons pre2 y tail2
        have hlt' : (findLastIndex (isToolWithId id) messages).toNat < pre.length := by
          omega
        have happ : (pre ++ x :: tail).get?
              (findLastIndex (isToolWithId id) messages).toNat =
            pre.get? (findLastIndex (isToolWithId id) messages).toNat :=
          List.get?_append hlt'
        have hypre : pre.get? (findLastIndex (isToolWithId id) messages).toNat = some y := by
          rw [← happ, ← heq]
          exact hgety
        have hymem : y ∈ pre := List.get?_mem hypre
        rw [hy] at hymem
        exact hfresh (hpretool id cnt hymem)
      obtain ⟨out, hout⟩ := (ctos_of_wf messages []).1 hwf
      refine ⟨.modeLlm out, ?_, rfl⟩
      unfold parseClientMessages
      rw [hltcc]
      dsimp only
      rw [if_neg (fun hand => hne hand.1), if_neg hne, if_neg hnotlt,
        show clientToServerMessages messages = ctosGo .normal messages from rfl, hout]
      rfl

/-- C7 (amended): for any well-formed client history, `parseClientMessages`
returns llm or code mode (never an error classification, never a throw); and
`clientToServerMessages` is idempotent on well-formed histories containing no
code block — it returns them verbatim, so a second application yields the same
list.  (On the output of a history with a closed code block a second
application instead throws; see the counterexample.) -/
theorem projection_soundness (messages : List ClientMessage)
    (hwf : WellFormed messages = true) :
    (∃ r, parseClientMessages messages = .ok r ∧ r.isLlmOrCode = true) ∧
    (noCodeAssistant messages = true →
      clientToServerMessages messages = .ok messages ∧
      (clientToServerMessages messages).bind clientToServerMessages = .ok messages) := by
  refine ⟨parse_wf_sound messages hwf, fun hnc => ?_⟩
  have hfix : clientToServerMessages messages = .ok messages :=
    ctos_fixpoint_of_code_free messages [] hwf hnc
  refine ⟨hfix, ?_⟩
  rw [hfix]
  exact hfix

/-- Counterexample to C7's idempotence as stated: a well-formed history with
one closed code block projects to an assistant `run_typescript` message
followed by a tool message; applying the projection a second time throws on
that tool message (it is no longer preceded by a code tool call), so the
second application does not return the first one's output. -/
theorem ctos_not_idempotent_on_closed_block :
    WellFormed
        [.assistant (some "") (some [.code "1" "async function main() \x7b\x7d"]),
         .tool "1" (.parses (.str "ok"))] = true ∧
    clientToServerMessages
        [.assistant (some "") (some [.code "1" "async function main() \x7b\x7d"]),
         .tool "1" (.parses (.str "ok"))] =
      .ok
        [.assistant (some "")
          (some [.func "1" "run_typescript"
            (.str (encodeCodeArg "async function main() \x7b\x7d")) none]),
         .tool "1" (.parses (.str "ok"))] ∧
    clientToServerMessages
        [.assistant (some "")
          (some [.func "1" "run_typescript"
            (.str (encodeCodeArg "async function main() \x7b\x7d")) none]),
         .tool "1" (.parses (.str "ok"))] =
      .error .toolOutsideCode := ⟨rfl, rfl, rfl⟩

/-- Closed instance of the amended C7 on a well-formed history with one closed
code block: classification lands in the llm mode. -/
theorem projection_soundness_witness :
    (∃ r, parseClientMessages
        [.user "hi",
         .assistant (some "") (some [.code "1" "async function main() \x7b\x7d"]),
         .tool "1" (.parses (.str "ok"))] = .ok r ∧ r.isLlmOrCode = true) ∧
    (noCodeAssistant
        [.user "hi",
         .assistant (some "") (some [.code "1" "async function main() \x7b\x7d"]),
         .tool "1" (.parses (.str "ok"))] = true →
      clientToServerMessages
        [.user "hi",
         .assistant (some "") (some [.code "1" "async function main() \x7b\x7d"]),
         .tool "1" (.parses (.str "ok"))] = .ok
          [.user "hi",
           .assistant (some "") (some [.code "1" "async function main() \x7b\x7d"]),
           .tool "1" (.parses (.str "ok"))] ∧
      (clientToServerMessages
        [.user "hi",
         .assistant (some "") (some [.code "1" "async function main() \x7b\x7d"]),
         .tool "1" (.parses (.str "ok"))]).bind clientToServerMessages = .ok
          [.user "hi",
           .assistant (some "") (some [.code "1" "async function main() \x7b\x7d"]),
           .tool "1" (.parses (.str "ok"))]) :=
  projection_soundness
    [.user "hi",
     .assistant (some "") (some [.code "1" "async function main() \x7b\x7d"]),
     .tool "1" (.parses (.str "ok"))] rfl
